import Mathlib

/-!
# Verification of the mrtkp9993/mdtohtml Markdown-to-HTML converter

This file gives a shallow embedding, over `List Char`, of the pure string
processing functions of `markdown_converter.py`, together with proofs of the
behavioural properties stated in the project specification.

Modelling conventions:
* Python strings are modelled as `List Char`.
* The regular expressions used by the source are simple deterministic
  patterns (`<p>\s*(<img[^>]+>)\s*</p>`, `title="([^"]+)"`, `alt="([^"]+)"`,
  `https?://[^\s]+`, `<h1[^>]*>.*?</h1>`); each one is translated into an
  explicit anchored matcher function plus a left-to-right scanner replicating
  `re.sub` / `re.search` semantics (leftmost match, advance by one character
  on failure, continue after the match on success).
* `re.IGNORECASE` is modelled by comparing characters after ASCII
  lower-casing (`lcc`).
* The Python whitespace class `\s` and `str.strip()` are modelled on their
  ASCII part (space, tab, newline, vertical tab, form feed, carriage return).
* Python exceptions are modelled with `Except`; the external YAML parser is a
  parameter of `parse_markdown`.
-/

namespace MdToHtml

/-- Python strings are modelled as lists of characters. -/
abbrev Str := List Char

/-- ASCII lower-casing of one character, used to model `re.IGNORECASE`. -/
def lcc (c : Char) : Char :=
  match c with
  | 'A' => 'a' | 'B' => 'b' | 'C' => 'c' | 'D' => 'd' | 'E' => 'e'
  | 'F' => 'f' | 'G' => 'g' | 'H' => 'h' | 'I' => 'i' | 'J' => 'j'
  | 'K' => 'k' | 'L' => 'l' | 'M' => 'm' | 'N' => 'n' | 'O' => 'o'
  | 'P' => 'p' | 'Q' => 'q' | 'R' => 'r' | 'S' => 's' | 'T' => 't'
  | 'U' => 'u' | 'V' => 'v' | 'W' => 'w' | 'X' => 'x' | 'Y' => 'y'
  | 'Z' => 'z'
  | c => c

/-- The Python whitespace class `\s` (and the set stripped by `str.strip()`),
restricted to its ASCII part. -/
def isWs (c : Char) : Bool :=
  c = ' ' || c = '\t' || c = '\n' || c = '\x0b' || c = '\x0c' || c = '\r'

/-- Match a literal pattern case-insensitively at the start of `s`
(the way an `re.IGNORECASE` literal matches).  Returns the consumed source
characters (original case) and the remainder. -/
def expectCI : Str → Str → Option (Str × Str)
  | [], s => some ([], s)
  | _ :: _, [] => none
  | l :: ls, c :: cs =>
    if lcc c = lcc l then
      match expectCI ls cs with
      | some (o, r) => some (c :: o, r)
      | none => none
    else none

/-- `str.strip()`: remove leading and trailing whitespace. -/
def pyStrip (s : Str) : Str :=
  ((s.dropWhile isWs).reverse.dropWhile isWs).reverse

/-- `str.lstrip()`: remove leading whitespace. -/
def pyLstrip (s : Str) : Str := s.dropWhile isWs

/-- The literal `<p>` of the pattern `IMG_P_TAG`. -/
def pLit : Str := ['<', 'p', '>']

/-- The literal `<img` of the pattern `IMG_P_TAG`. -/
def imgLit : Str := ['<', 'i', 'm', 'g']

/-- The literal `</p>` of the pattern `IMG_P_TAG`. -/
def pCloseLit : Str := ['<', '/', 'p', '>']

/-- Anchored matcher for the compiled pattern
`IMG_P_TAG = re.compile(r"<p>\s*(<img[^>]+>)\s*</p>", re.IGNORECASE)`.

On success it returns `(m, g, r)` where `m` is the whole matched text
(`match.group(0)`), `g` the captured image tag (`match.group(1)`) and `r`
the rest of the input.  The pattern is deterministic: each `\s*` is a
maximal whitespace run (it must be followed by `<`), and `[^>]+` is the
maximal run of non-`>` characters (it must be followed by `>`). -/
def matchPTag (s : Str) : Option (Str × Str × Str) :=
  match expectCI pLit s with
  | none => none
  | some (o1, s1) =>
    let w1 := s1.takeWhile isWs
    let s2 := s1.dropWhile isWs
    match expectCI imgLit s2 with
    | none => none
    | some (o2, s3) =>
      let attrs := s3.takeWhile (fun c => c ≠ '>')
      let s4 := s3.dropWhile (fun c => c ≠ '>')
      if attrs = [] then none
      else
        match s4 with
        | [] => none
        | gt :: s5 =>
          let w2 := s5.takeWhile isWs
          let s6 := s5.dropWhile isWs
          match expectCI pCloseLit s6 with
          | none => none
          | some (o3, s7) =>
            some (o1 ++ w1 ++ (o2 ++ attrs ++ [gt]) ++ w2 ++ o3,
                  o2 ++ attrs ++ [gt], s7)

/-- Try to match `NAME="([^"]+)"` at the start of `s` (the attribute pattern
used by `_repl`); `lit` is the case-insensitive literal, e.g. `title="`.
Returns the captured group on success. -/
def attrAt (lit s : Str) : Option Str :=
  match expectCI lit s with
  | none => none
  | some (_, s1) =>
    let v := s1.takeWhile (fun c => c ≠ '"')
    let s2 := s1.dropWhile (fun c => c ≠ '"')
    if v = [] then none
    else
      match s2 with
      | [] => none
      | _ :: _ => some v

/-- `re.search` for the attribute pattern: try every position left to right. -/
def findAttr (lit : Str) : Str → Option Str
  | [] => none
  | c :: cs =>
    match attrAt lit (c :: cs) with
    | some v => some v
    | none => findAttr lit cs

/-- The literal `title="` (matched case-insensitively). -/
def titleLit : Str := ['t', 'i', 't', 'l', 'e', '=', '"']

/-- The literal `alt="` (matched case-insensitively). -/
def altLit : Str := ['a', 'l', 't', '=', '"']

/-- The caption computed by `_repl` from an image tag: the stripped `title`
value if a `title="..."` attribute matches, otherwise the stripped `alt`
value if an `alt="..."` attribute matches, otherwise `none`.  (The `alt`
attribute is not consulted when a `title` attribute matches: `elif`.) -/
def captionOf (g : Str) : Option Str :=
  match findAttr titleLit g with
  | some v => some (pyStrip v)
  | none =>
    match findAttr altLit g with
    | some v => some (pyStrip v)
    | none => none

/-- Anchored matcher for the URL pattern `https?://[^\s]+` (case sensitive).
Returns the matched URL and the rest. -/
def urlAt : Str → Option (Str × Str)
  | 'h' :: 't' :: 't' :: 'p' :: rest =>
    match rest with
    | 's' :: ':' :: '/' :: '/' :: r2 =>
      let t := r2.takeWhile (fun c => ¬ isWs c)
      if t = [] then none
      else some (['h', 't', 't', 'p', 's', ':', '/', '/'] ++ t,
                 r2.dropWhile (fun c => ¬ isWs c))
    | ':' :: '/' :: '/' :: r2 =>
      let t := r2.takeWhile (fun c => ¬ isWs c)
      if t = [] then none
      else some (['h', 't', 't', 'p', ':', '/', '/'] ++ t,
                 r2.dropWhile (fun c => ¬ isWs c))
    | _ => none
  | _ => none

/-- The anchor produced by `linkify` for a URL:
`<a href="{url}" target="_blank" rel="noopener noreferrer">{url}</a>`. -/
def anchorOf (u : Str) : Str :=
  "<a href=\"".data ++ u ++
  "\" target=\"_blank\" rel=\"noopener noreferrer\">".data ++ u ++ "</a>".data

theorem urlAt_length {s u r : Str} (h : urlAt s = some (u, r)) :
    s = u ++ r ∧ u ≠ [] := by
  unfold urlAt at h
  split at h
  · split at h
    · rename_i r2
      by_cases ht : r2.takeWhile (fun c => ¬ isWs c) = []
      · rw [if_pos ht] at h; exact absurd h (by simp)
      · rw [if_neg ht] at h
        simp only [Option.some.injEq, Prod.mk.injEq] at h
        obtain ⟨hu, hr⟩ := h
        subst hu hr
        refine ⟨?_, by simp⟩
        simp [List.append_assoc, List.takeWhile_append_dropWhile]
    · rename_i r2
      by_cases ht : r2.takeWhile (fun c => ¬ isWs c) = []
      · rw [if_pos ht] at h; exact absurd h (by simp)
      · rw [if_neg ht] at h
        simp only [Option.some.injEq, Prod.mk.injEq] at h
        obtain ⟨hu, hr⟩ := h
        subst hu hr
        refine ⟨?_, by simp⟩
        simp [List.append_assoc, List.takeWhile_append_dropWhile]
    · exact absurd h (by simp)
  · exact absurd h (by simp)

theorem urlAt_length_lt {s u r : Str} (h : urlAt s = some (u, r)) :
    r.length < s.length := by
  obtain ⟨hs, hu⟩ := urlAt_length h
  subst hs
  have : 0 < u.length := List.length_pos.mpr hu
  simp [List.length_append]
  omega

/-- `re.sub(r"https?://[^\s]+", linkify, caption)`: left-to-right scan,
replacing each match with its anchor. -/
def urlSub : Str → Str
  | [] => []
  | c :: cs =>
    match h : urlAt (c :: cs) with
    | some (u, r) =>
      have : r.length < (c :: cs).length := urlAt_length_lt h
      anchorOf u ++ urlSub r
    | none => c :: urlSub cs
  termination_by s => s.length

/-- The replacement function `_repl`: wrap in a figure (with the linkified
caption) when the caption is truthy, otherwise return the match unchanged. -/
def replF (m g : Str) : Str :=
  match captionOf g with
  | none => m
  | some cap =>
    if cap = [] then m
    else
      "<figure>".data ++ g ++ "<figcaption>".data ++ urlSub cap ++
        "</figcaption></figure>".data

theorem expectCI_sound {lit : Str} : ∀ {s o r : Str},
    expectCI lit s = some (o, r) →
    s = o ++ r ∧ o.length = lit.length ∧ o.map lcc = lit.map lcc := by
  induction lit with
  | nil =>
    intro s o r h
    simp only [expectCI, Option.some.injEq, Prod.mk.injEq] at h
    obtain ⟨ho, hr⟩ := h
    subst ho hr
    simp
  | cons l ls ih =>
    intro s o r h
    match s with
    | [] => simp [expectCI] at h
    | c :: cs =>
      unfold expectCI at h
      by_cases hc : lcc c = lcc l
      · rw [if_pos hc] at h
        match he : expectCI ls cs with
        | none => rw [he] at h; simp at h
        | some (o2, r2) =>
          rw [he] at h
          simp only [Option.some.injEq, Prod.mk.injEq] at h
          obtain ⟨ho, hr⟩ := h
          obtain ⟨e1, e2, e3⟩ := ih he
          subst ho hr
          subst e1
          simp [e2, e3, hc]
      · rw [if_neg hc] at h; simp at h

theorem matchPTag_sound {s m g r : Str} (h : matchPTag s = some (m, g, r)) :
    s = m ++ r ∧ m ≠ [] := by
  unfold matchPTag at h
  match h1 : expectCI pLit s with
  | none => rw [h1] at h; simp at h
  | some (o1, s1) =>
    rw [h1] at h
    simp only at h
    match h2 : expectCI imgLit (s1.dropWhile isWs) with
    | none => rw [h2] at h; simp at h
    | some (o2, s3) =>
      rw [h2] at h
      simp only at h
      by_cases hA : s3.takeWhile (fun c => c ≠ '>') = []
      · rw [if_pos hA] at h; exact absurd h (by simp)
      · rw [if_neg hA] at h
        match h4 : s3.dropWhile (fun c => c ≠ '>') with
        | [] => rw [h4] at h; simp at h
        | gt :: s5 =>
          rw [h4] at h
          simp only at h
          match h5 : expectCI pCloseLit (s5.dropWhile isWs) with
          | none => rw [h5] at h; simp at h
          | some (o3, s7) =>
            rw [h5] at h
            simp only [Option.some.injEq, Prod.mk.injEq] at h
            obtain ⟨hm, hg, hr⟩ := h
            subst hm hg hr
            obtain ⟨e1, e1len, e1ci⟩ := expectCI_sound h1
            obtain ⟨e2, e2len, e2ci⟩ := expectCI_sound h2
            obtain ⟨e3, e3len, e3ci⟩ := expectCI_sound h5
            constructor
            · rw [e1]
              have hs1 : s1 = s1.takeWhile isWs ++ s1.dropWhile isWs :=
                (List.takeWhile_append_dropWhile isWs s1).symm
              have hs3 : s3 = s3.takeWhile (fun c => c ≠ '>') ++
                  s3.dropWhile (fun c => c ≠ '>') :=
                (List.takeWhile_append_dropWhile (fun c => c ≠ '>') s3).symm
              have hs5 : s5 = s5.takeWhile isWs ++ s5.dropWhile isWs :=
                (List.takeWhile_append_dropWhile isWs s5).symm
              rw [e2] at hs1
              rw [e3] at hs5
              rw [hs3, h4] at hs1
              conv_lhs => rw [hs1, hs5]
              simp [List.append_assoc]
            · intro hcon
              simp at hcon

theorem matchPTag_length_lt {s m g r : Str} (h : matchPTag s = some (m, g, r)) :
    r.length < s.length := by
  obtain ⟨hs, hm⟩ := matchPTag_sound h
  subst hs
  have : 0 < m.length := List.length_pos.mpr hm
  simp [List.length_append]
  omega

/-- `convert_img_captions` (the `IMG_P_TAG.sub(_repl, html)` call):
left-to-right scan replacing each standalone image paragraph via `_repl`. -/
def convert_img_captions : Str → Str
  | [] => []
  | c :: cs =>
    match h : matchPTag (c :: cs) with
    | some (m, g, r) =>
      have : r.length < (c :: cs).length := matchPTag_length_lt h
      replF m g ++ convert_img_captions r
    | none => c :: convert_img_captions cs
  termination_by s => s.length

/-! ### Character-level facts about `lcc` and `isWs` -/

theorem isWs_lcc (a : Char) : isWs (lcc a) = isWs a := by
  unfold lcc; split <;> rfl

theorem lcc_eq_lt_iff {a : Char} : lcc a = '<' ↔ a = '<' := by
  unfold lcc; split <;> simp_all

theorem lcc_eq_gt_iff {a : Char} : lcc a = '>' ↔ a = '>' := by
  unfold lcc; split <;> simp_all

theorem lcc_eq_slash_iff {a : Char} : lcc a = '/' ↔ a = '/' := by
  unfold lcc; split <;> simp_all

theorem lcc_eq_quot_iff {a : Char} : lcc a = '"' ↔ a = '"' := by
  unfold lcc; split <;> simp_all

/-! ### List scanning helper lemmas -/

theorem dropWhile_head_false {p : Char → Bool} :
    ∀ {s : Str} {c : Char} {cs : Str}, s.dropWhile p = c :: cs → p c = false := by
  intro s
  induction s with
  | nil => intro c cs h; simp [List.dropWhile] at h
  | cons a t ih =>
    intro c cs h
    rw [List.dropWhile_cons] at h
    by_cases hp : p a = true
    · rw [if_pos hp] at h; exact ih h
    · rw [if_neg hp] at h
      obtain ⟨h1, _⟩ := List.cons.injEq .. ▸ h
      injection h with h1 h2
      subst h1
      exact Bool.eq_false_iff.mpr hp

theorem takeWhile_append_eq {p : Char → Bool} :
    ∀ {w r : Str}, (∀ c ∈ w, p c = true) →
    (∀ c cs, r = c :: cs → p c = false) →
    (w ++ r).takeWhile p = w ∧ (w ++ r).dropWhile p = r := by
  intro w
  induction w with
  | nil =>
    intro r _ hr
    match r with
    | [] => simp
    | c :: cs =>
      have := hr c cs rfl
      simp [List.takeWhile_cons, List.dropWhile_cons, this]
  | cons a w ih =>
    intro r hw hr
    have ha : p a = true := hw a (by simp)
    have := ih (fun c hc => hw c (by simp [hc])) hr
    simp [List.takeWhile_cons, List.dropWhile_cons, ha, this.1, this.2]

/-- Case-insensitive literal matching succeeds on any string whose prefix
lower-cases to the literal. -/
theorem expectCI_complete {lit : Str} : ∀ {o : Str},
    o.map lcc = lit.map lcc → ∀ Y, expectCI lit (o ++ Y) = some (o, Y) := by
  induction lit with
  | nil =>
    intro o ho Y
    have : o = [] := by simpa using congrArg List.length ho
    subst this
    simp [expectCI]
  | cons l ls ih =>
    intro o ho Y
    match o with
    | [] => simp at ho
    | c :: cs =>
      simp only [List.map_cons, List.cons.injEq] at ho
      simp only [List.cons_append, expectCI]
      rw [if_pos ho.1]
      simp only [List.append_eq]
      rw [ih ho.2 Y]

/-! ### The shape of a successful `IMG_P_TAG` match -/

/-- Structural description of `(m, g)` as returned by `matchPTag`:
`m` is `<p>` (case-insensitively), a whitespace run, the image tag `g`,
another whitespace run and `</p>`; `g` is `<img`, a nonempty run of
non-`>` characters and a final `>`. -/
def PShape (m g : Str) : Prop :=
  ∃ o1 w1 o2 attrs w2 o3,
    m = o1 ++ w1 ++ g ++ w2 ++ o3 ∧
    g = o2 ++ attrs ++ ['>'] ∧
    o1.map lcc = pLit.map lcc ∧
    (∀ c ∈ w1, isWs c = true) ∧
    o2.map lcc = imgLit.map lcc ∧
    attrs ≠ [] ∧ (∀ c ∈ attrs, c ≠ '>') ∧
    (∀ c ∈ w2, isWs c = true) ∧
    o3.map lcc = pCloseLit.map lcc

theorem matchPTag_shape {s m g r : Str} (h : matchPTag s = some (m, g, r)) :
    PShape m g := by
  unfold matchPTag at h
  match h1 : expectCI pLit s with
  | none => rw [h1] at h; simp at h
  | some (o1, s1) =>
    rw [h1] at h
    simp only at h
    match h2 : expectCI imgLit (s1.dropWhile isWs) with
    | none => rw [h2] at h; simp at h
    | some (o2, s3) =>
      rw [h2] at h
      simp only at h
      by_cases hA : s3.takeWhile (fun c => c ≠ '>') = []
      · rw [if_pos hA] at h; exact absurd h (by simp)
      · rw [if_neg hA] at h
        match h4 : s3.dropWhile (fun c => c ≠ '>') with
        | [] => rw [h4] at h; simp at h
        | gt :: s5 =>
          rw [h4] at h
          simp only at h
          match h5 : expectCI pCloseLit (s5.dropWhile isWs) with
          | none => rw [h5] at h; simp at h
          | some (o3, s7) =>
            rw [h5] at h
            simp only [Option.some.injEq, Prod.mk.injEq] at h
            obtain ⟨hm, hg, hr⟩ := h
            subst hm hg hr
            have hgt : gt = '>' := by
              have := dropWhile_head_false h4
              simpa using this
            subst hgt
            refine ⟨o1, s1.takeWhile isWs, o2, s3.takeWhile (fun c => c ≠ '>'),
              s5.takeWhile isWs, o3, by simp [List.append_assoc], rfl,
              (expectCI_sound h1).2.2, ?_, (expectCI_sound h2).2.2, hA, ?_, ?_,
              (expectCI_sound h5).2.2⟩
            · intro c hc
              exact List.mem_takeWhile_imp hc
            · intro c hc
              have := List.mem_takeWhile_imp hc
              simpa using this
            · intro c hc
              exact List.mem_takeWhile_imp hc

/-- The matcher is determined by the matched prefix: a string with the match
shape at its head always matches exactly that prefix, whatever follows. -/
theorem matchPTag_of_shape {m g : Str} (hs : PShape m g) :
    ∀ Y, matchPTag (m ++ Y) = some (m, g, Y) := by
  obtain ⟨o1, w1, o2, attrs, w2, o3, hm, hg, ho1, hw1, ho2, hAne, hAgt, hw2, ho3⟩ := hs
  intro Y
  subst hm hg
  have ho2head : ∃ c2 cs2, o2 = c2 :: cs2 ∧ c2 = '<' := by
    match o2, ho2 with
    | c2 :: cs2, ho2 =>
      simp only [List.map_cons, imgLit, List.cons.injEq] at ho2
      exact ⟨c2, cs2, rfl, lcc_eq_lt_iff.mp (by simpa using ho2.1)⟩
  obtain ⟨c2, cs2, ho2e, hc2⟩ := ho2head
  have ho3head : ∃ c3 cs3, o3 = c3 :: cs3 ∧ c3 = '<' := by
    match o3, ho3 with
    | c3 :: cs3, ho3 =>
      simp only [List.map_cons, pCloseLit, List.cons.injEq] at ho3
      exact ⟨c3, cs3, rfl, lcc_eq_lt_iff.mp (by simpa using ho3.1)⟩
  obtain ⟨c3, cs3, ho3e, hc3⟩ := ho3head
  unfold matchPTag
  rw [show (o1 ++ w1 ++ (o2 ++ attrs ++ ['>']) ++ w2 ++ o3) ++ Y =
      o1 ++ (w1 ++ (o2 ++ attrs ++ ['>']) ++ w2 ++ o3 ++ Y) by
    simp [List.append_assoc]]
  rw [expectCI_complete ho1]
  simp only
  have hws1 : (w1 ++ ((o2 ++ attrs ++ ['>']) ++ w2 ++ o3 ++ Y)).takeWhile isWs = w1 ∧
      (w1 ++ ((o2 ++ attrs ++ ['>']) ++ w2 ++ o3 ++ Y)).dropWhile isWs =
        (o2 ++ attrs ++ ['>']) ++ w2 ++ o3 ++ Y := by
    refine takeWhile_append_eq hw1 ?_
    intro c cs hcc
    rw [ho2e] at hcc
    simp only [List.append_assoc, List.cons_append] at hcc
    injection hcc with hcc1 _
    subst hcc1 hc2
    rfl
  rw [show w1 ++ (o2 ++ attrs ++ ['>']) ++ w2 ++ o3 ++ Y =
      w1 ++ ((o2 ++ attrs ++ ['>']) ++ w2 ++ o3 ++ Y) by simp [List.append_assoc]]
  rw [hws1.1, hws1.2]
  rw [show (o2 ++ attrs ++ ['>']) ++ w2 ++ o3 ++ Y =
      o2 ++ (attrs ++ ['>'] ++ w2 ++ o3 ++ Y) by simp [List.append_assoc]]
  rw [expectCI_complete ho2]
  simp only
  have hatt : (attrs ++ (['>'] ++ w2 ++ o3 ++ Y)).takeWhile (fun c => c ≠ '>') = attrs ∧
      (attrs ++ (['>'] ++ w2 ++ o3 ++ Y)).dropWhile (fun c => c ≠ '>') =
        ['>'] ++ w2 ++ o3 ++ Y := by
    refine takeWhile_append_eq ?_ ?_
    · intro c hc
      simpa using hAgt c hc
    · intro c cs hcc
      simp only [List.append_assoc, List.cons_append] at hcc
      injection hcc with hcc1 _
      subst hcc1
      simp
  rw [show attrs ++ ['>'] ++ w2 ++ o3 ++ Y =
      attrs ++ (['>'] ++ w2 ++ o3 ++ Y) by simp [List.append_assoc]]
  rw [hatt.1, hatt.2]
  rw [if_neg hAne]
  simp only [List.cons_append, List.nil_append]
  have hws2 : (w2 ++ (o3 ++ Y)).takeWhile isWs = w2 ∧
      (w2 ++ (o3 ++ Y)).dropWhile isWs = o3 ++ Y := by
    refine takeWhile_append_eq hw2 ?_
    intro c cs hcc
    rw [ho3e] at hcc
    injection hcc with hcc1 _
    subst hcc1 hc3
    rfl
  rw [show w2 ++ o3 ++ Y = w2 ++ (o3 ++ Y) by simp [List.append_assoc]]
  rw [hws2.1, hws2.2, expectCI_complete ho3]

/-! ### `parse_markdown`: front-matter splitting

The source reads the file and then processes the text; we model the text
directly.  The external YAML parser (`yaml.safe_load`) is a parameter:
it may raise (`Except.error`), return a falsy value (`Option.none`, covering
Python `None` and other falsy results that `or {}` replaces by `{}`), or
return a mapping. -/

/-- `text.startswith(pat)`. -/
def startsW : Str → Str → Bool
  | [], _ => true
  | _ :: _, [] => false
  | p :: ps, c :: cs => p = c && startsW ps cs

/-- Find the first occurrence of (nonempty) `pat`: returns the part before
it and the part after it. -/
def splitOnce (pat : Str) : Str → Option (Str × Str)
  | [] => none
  | c :: cs =>
    if startsW pat (c :: cs) then some ([], (c :: cs).drop pat.length)
    else
      match splitOnce pat cs with
      | some (pre, post) => some (c :: pre, post)
      | none => none

/-- `text.split(pat, 2)`: at most three parts, scanning left to right. -/
def split3 (pat text : Str) : List Str :=
  match splitOnce pat text with
  | none => [text]
  | some (a, r1) =>
    match splitOnce pat r1 with
    | none => [a, r1]
    | some (b, r2) => [a, b, r2]

/-- The front-matter delimiter `---`. -/
def dashes : Str := ['-', '-', '-']

/-- `parse_markdown` on the file text.  `emptyM` models the empty mapping
`{}`; `yamlLoad` models `yaml.safe_load`.  The source has no exception
handler, so a YAML error propagates (`Except.error`). -/
def parse_markdown {α ε : Type} (emptyM : α)
    (yamlLoad : Str → Except ε (Option α)) (text : Str) :
    Except ε (α × Str) :=
  if startsW dashes text then
    match split3 dashes text with
    | [_, yamlBlock, mdBody] => do
      let m ← yamlLoad yamlBlock
      pure ((match m with | some mm => mm | none => emptyM), pyLstrip mdBody)
    | _ => pure (emptyM, text)
  else pure (emptyM, text)

/-! ### `DEFAULT_META`, metadata resolution and `build_html`

Front-matter mappings are modelled as partial maps from key to string
value (the default values, and the values the claims are concerned with,
are strings). -/

/-- The built-in `DEFAULT_META` mapping. -/
def DEFAULT_META : String → Option String := fun k =>
  if k = "title" then some "Untitled Post"
  else if k = "description" then some "Markdown to HTML output"
  else if k = "keywords" then some "blog, markdown, python"
  else if k = "canonical" then some ""
  else if k = "image" then some "imgs/social.webp"
  else if k = "url" then some ""
  else if k = "date" then some ""
  else none

/-- The merged mapping `m = {**DEFAULT_META, **meta}`: a key present in
`meta` wins, otherwise the default is used. -/
def mergeMeta (meta : String → Option String) (k : String) : Option String :=
  match meta k with
  | some v => some v
  | none => DEFAULT_META k

/-- The canonical metadata record read by `build_html` (every field of the
merged mapping it consumes). -/
structure MetaRec where
  title : String
  description : String
  keywords : String
  canonical : String
  url : String
  image : String
  date : String
  deriving Repr, DecidableEq

/-- The metadata values `build_html` resolves from lines 112–119:
`title`/`description`/`keywords` come from the merged mapping (always
present because `DEFAULT_META` has the key), `canonical` is
`m["canonical"] or m.get("url", "")` (the empty string is falsy), and
`url`/`image`/`date` use `m.get` with defaults that never fire because the
merged mapping always has the keys. -/
def build_html_meta (meta : String → Option String) : MetaRec :=
  let m : String → String := fun k => (mergeMeta meta k).getD ""
  { title := m "title"
    description := m "description"
    keywords := m "keywords"
    canonical := if m "canonical" = "" then m "url" else m "canonical"
    url := m "url"
    image := m "image"
    date := m "date" }

/-- `CSS_LINK` configuration constant. -/
def CSS_LINK : String :=
  "<link rel=\"stylesheet\" href=\"css/pico.classless.cyan.min.css\" />"

/-- `MATHJAX_SCRIPT` configuration constant. -/
def MATHJAX_SCRIPT : String :=
  "<script type=\"text/x-mathjax-config\">\nMathJax.Hub.Config(\x7b\n  tex2jax: \x7b\n    inlineMath: [[\"$\",\"$\"]],\n    displayMath: [[\"$$\",\"$$\"]],\n    processEscapes: true\n  \x7d,\n  \"HTML-CSS\": \x7b\n    linebreaks: \x7b automatic: true \x7d,\n    availableFonts: [\"STIX\"],\n    preferredFont: \"STIX\",\n    webFont: \"STIX-Web\",\n    imageFont: null,\n    undefinedFamily: \"STIXGeneral,\x27Arial Unicode MS\x27,serif\"\n  \x7d\n\x7d);\n</script>\n<script defer src=\"https://cdnjs.cloudflare.com/ajax/libs/mathjax/2.7.9/MathJax.js?config=TeX-AMS_CHTML\"></script>"

/-- `STYLE_BLOCK` configuration constant. -/
def STYLE_BLOCK : String :=
  "<style>\nfigure img, p > img \x7b\n  max-width: 33vw;\n  display: block;\n  margin-left: auto;\n  margin-right: auto;\n\x7d\nfigcaption \x7b\n  text-align: center;\n  font-style: italic;\n\x7d\n</style>"

/-- The canonical link element of the head template, with the resolved
canonical value interpolated. -/
def canonicalLinkOf (c : String) : String :=
  "<link rel=\"canonical\" href=\"" ++ c ++ "\" />"

/-- The head template of `build_html` (the `head` f-string after
`.strip()`), with the resolved metadata interpolated. -/
def headOf (r : MetaRec) : String :=
  "<meta charset=\"utf-8\" />\n    <meta name=\"viewport\" content=\"width=device-width,initial-scale=1\" />\n    <link rel=\"icon\" href=\"/favicon.ico\" />\n    <meta name=\"color-scheme\" content=\"dark\">\n\n    <title>" ++
  r.title ++ "</title>\n    <meta name=\"title\" content=\"" ++ r.title ++
  "\" />\n    <meta name=\"description\" content=\"" ++ r.description ++
  "\" />\n    <meta name=\"keywords\" content=\"" ++ r.keywords ++
  "\" />\n    " ++ canonicalLinkOf r.canonical ++
  "\n\n    <!-- Open Graph / Facebook -->\n    <meta property=\"og:type\" content=\"website\" />\n    <meta property=\"og:url\" content=\"" ++
  r.url ++ "\" />\n    <meta property=\"og:title\" content=\"" ++ r.title ++
  "\" />\n    <meta property=\"og:description\" content=\"" ++ r.description ++
  "\" />\n    <meta property=\"og:image\" content=\"" ++ r.image ++
  "\" />\n\n    <!-- Twitter -->\n    <meta property=\"twitter:card\" content=\"summary_large_image\" />\n    <meta property=\"twitter:url\" content=\"" ++
  r.url ++ "\" />\n    <meta property=\"twitter:title\" content=\"" ++ r.title ++
  "\" />\n    <meta property=\"twitter:description\" content=\"" ++ r.description ++
  "\" />\n    <meta property=\"twitter:image\" content=\"" ++ r.image ++
  "\" />\n    " ++ CSS_LINK ++ "\n    " ++ STYLE_BLOCK ++ "\n    " ++ MATHJAX_SCRIPT

/-- `build_html`: the final document string. -/
def build_html (meta : String → Option String) (body_html : String) : String :=
  "<!DOCTYPE html>\n<html lang=\"en\">\n<head>\n" ++
  headOf (build_html_meta meta) ++
  "\n</head>\n<body>\n<main class=\"container\">\n" ++ body_html ++
  "\n</main>\n</body>\n</html>"

/-! ### `inject_date_subtitle` -/

/-- The `</h1>` literal of the heading pattern. -/
def h1CloseLit : Str := ['<', '/', 'h', '1', '>']

/-- The `<h1` literal of the heading pattern. -/
def h1OpenLit : Str := ['<', 'h', '1']

/-- The lazy `.*?</h1>` part (with `re.DOTALL`): find the first occurrence
of `</h1>` (case-insensitively); returns the characters before it, the
matched closing tag (source case) and the rest. -/
def findH1Close : Str → Option (Str × Str × Str)
  | [] => none
  | c :: cs =>
    match expectCI h1CloseLit (c :: cs) with
    | some (o, r) => some ([], o, r)
    | none =>
      match findH1Close cs with
      | some (mid, cl, r) => some (c :: mid, cl, r)
      | none => none

/-- Anchored matcher for `<h1[^>]*>.*?</h1>` (IGNORECASE, DOTALL):
returns the matched region and the rest. -/
def h1At (s : Str) : Option (Str × Str) :=
  match expectCI h1OpenLit s with
  | none => none
  | some (o1, s1) =>
    let attrs := s1.takeWhile (fun c => c ≠ '>')
    let s2 := s1.dropWhile (fun c => c ≠ '>')
    match s2 with
    | [] => none
    | gt :: s3 =>
      match findH1Close s3 with
      | none => none
      | some (mid, cl, rest) => some (o1 ++ attrs ++ [gt] ++ mid ++ cl, rest)

/-- `re.search` for the heading pattern: returns `html[:match.end()]` and
`html[match.end():]`. -/
def searchH1 : Str → Option (Str × Str)
  | [] => none
  | c :: cs =>
    match h1At (c :: cs) with
    | some (m, r) => some (m, r)
    | none =>
      match searchH1 cs with
      | some (p, r) => some (c :: p, r)
      | none => none

/-- The subtitle fragment inserted by `inject_date_subtitle`. -/
def subtitleOf (date : Str) : Str :=
  "\n<p class=\"subtitle\"><time datetime=\"".data ++ date ++ "\">".data ++
  date ++ "</time></p>".data

/-- `inject_date_subtitle`: insert the subtitle after the first `<h1>...</h1>`
match; unchanged when the date is falsy or no heading matches. -/
def inject_date_subtitle (html date : Str) : Str :=
  if date = [] then html
  else
    match searchH1 html with
    | none => html
    | some (p, r) => p ++ subtitleOf date ++ r

/-! ### `run.py`

`run.py` executes `from markdown_converter import MarkdownConverter` before
anything else; the import looks the name up in the module namespace of
`markdown_converter.py`, which contains the imported modules and the
module-level definitions — and no `MarkdownConverter`. -/

/-- The names defined in the module namespace of `markdown_converter.py`
(imports and top-level definitions, in source order). -/
def markdown_converter_names : List String :=
  ["re", "sys", "Path", "markdown", "yaml",
   "CSS_LINK", "MATHJAX_SCRIPT", "STYLE_BLOCK", "DEFAULT_META", "IMG_P_TAG",
   "convert_img_captions", "parse_markdown", "build_html", "convert",
   "inject_date_subtitle"]

/-- Outcome of running `python run.py <args>`. -/
inductive RunResult where
  | importError
  | usageExit
  | missingInputExit
  | completed (outputFile : String)
  deriving Repr, DecidableEq

/-- `os.path.basename` (POSIX separators). -/
def basenameOf (p : Str) : Str :=
  (p.reverse.takeWhile (fun c => c ≠ '/')).reverse

/-- The stem part of `os.path.splitext` on a basename: drop the suffix from
the last dot, where the leading dots of the name never count as an
extension separator. -/
def stemOf (b : Str) : Str :=
  let leading := b.takeWhile (fun c => c = '.')
  let rest := b.dropWhile (fun c => c = '.')
  if rest.any (fun c => c = '.') then
    leading ++ ((rest.reverse.dropWhile (fun c => c ≠ '.')).drop 1).reverse
  else b

/-- `run.py`: the module-level import runs first; only if it succeeded
would the `main()` body (usage check, existence check, conversion,
completion message) be reached. -/
def run_py (argv : List String) (isfile : String → Bool) : RunResult :=
  if markdown_converter_names.contains "MarkdownConverter" = false then
    .importError
  else if argv.length < 2 then .usageExit
  else
    match argv with
    | _ :: input :: _ =>
      if isfile input = false then .missingInputExit
      else .completed ("outputs/" ++ (stemOf (basenameOf input.data)).asString ++ ".html")
    | _ => .usageExit

/-! ### Soundness of the heading search -/

theorem findH1Close_sound : ∀ {s mid cl rest : Str},
    findH1Close s = some (mid, cl, rest) →
    s = mid ++ cl ++ rest ∧ cl.map lcc = h1CloseLit.map lcc := by
  intro s
  induction s with
  | nil => intro mid cl rest h; simp [findH1Close] at h
  | cons c cs ih =>
    intro mid cl rest h
    unfold findH1Close at h
    match he : expectCI h1CloseLit (c :: cs) with
    | some (o, r) =>
      rw [he] at h
      simp only [Option.some.injEq, Prod.mk.injEq] at h
      obtain ⟨h1, h2, h3⟩ := h
      subst h1 h2 h3
      obtain ⟨e1, _, e3⟩ := expectCI_sound he
      exact ⟨by simpa using e1, e3⟩
    | none =>
      rw [he] at h
      simp only at h
      match hf : findH1Close cs with
      | some (mid2, cl2, r2) =>
        rw [hf] at h
        simp only [Option.some.injEq, Prod.mk.injEq] at h
        obtain ⟨h1, h2, h3⟩ := h
        subst h1 h2 h3
        obtain ⟨e1, e2⟩ := ih hf
        exact ⟨by simp [e1], e2⟩
      | none => rw [hf] at h; simp at h

theorem h1At_sound {s m r : Str} (h : h1At s = some (m, r)) :
    s = m ++ r ∧ ∃ q cl, m = q ++ cl ∧ cl.map lcc = h1CloseLit.map lcc := by
  unfold h1At at h
  match h1 : expectCI h1OpenLit s with
  | none => rw [h1] at h; simp at h
  | some (o1, s1) =>
    rw [h1] at h
    simp only at h
    match h2 : s1.dropWhile (fun c => c ≠ '>') with
    | [] => rw [h2] at h; simp at h
    | gt :: s3 =>
      rw [h2] at h
      simp only at h
      match h3 : findH1Close s3 with
      | none => rw [h3] at h; simp at h
      | some (mid, cl, rest) =>
        rw [h3] at h
        simp only [Option.some.injEq, Prod.mk.injEq] at h
        obtain ⟨hm, hr⟩ := h
        subst hm hr
        obtain ⟨e1, _, _⟩ := expectCI_sound h1
        obtain ⟨f1, f2⟩ := findH1Close_sound h3
        constructor
        · rw [e1]
          have hs1 : s1 = s1.takeWhile (fun c => c ≠ '>') ++
              s1.dropWhile (fun c => c ≠ '>') :=
            (List.takeWhile_append_dropWhile (fun c => c ≠ '>') s1).symm
          rw [h2] at hs1
          conv_lhs => rw [hs1]
          rw [f1]
          simp [List.append_assoc]
        · exact ⟨o1 ++ s1.takeWhile (fun c => c ≠ '>') ++ [gt] ++ mid, cl,
            by simp [List.append_assoc], f2⟩

theorem searchH1_sound : ∀ {s p r : Str},
    searchH1 s = some (p, r) →
    s = p ++ r ∧ ∃ q cl, p = q ++ cl ∧ cl.map lcc = h1CloseLit.map lcc := by
  intro s
  induction s with
  | nil => intro p r h; simp [searchH1] at h
  | cons c cs ih =>
    intro p r h
    unfold searchH1 at h
    match h1 : h1At (c :: cs) with
    | some (m, r2) =>
      rw [h1] at h
      simp only [Option.some.injEq, Prod.mk.injEq] at h
      obtain ⟨hp, hr⟩ := h
      subst hp hr
      exact h1At_sound h1
    | none =>
      rw [h1] at h
      simp only at h
      match h2 : searchH1 cs with
      | some (p2, r2) =>
        rw [h2] at h
        simp only [Option.some.injEq, Prod.mk.injEq] at h
        obtain ⟨hp, hr⟩ := h
        subst hp hr
        obtain ⟨e1, q, cl, e2, e3⟩ := ih h2
        exact ⟨by simp [e1], c :: q, cl, by simp [e2], e3⟩
      | none => rw [h2] at h; simp at h

/-! ### Claim theorems: front matter, metadata, date subtitle, entry point -/

/-- C4: if the text starts with the `---` delimiter but splits into fewer
than three parts, `parse_markdown` returns empty metadata with the whole
original text as body and never fails; when a well-formed block is found
(three parts, YAML succeeds) the body is the third part with leading
whitespace trimmed. -/
theorem c4_front_matter_split {α ε : Type} (emptyM : α)
    (yamlLoad : Str → Except ε (Option α)) (text : Str) :
    (startsW dashes text = true → (split3 dashes text).length < 3 →
      parse_markdown emptyM yamlLoad text = Except.ok (emptyM, text)) ∧
    (∀ a b c m, startsW dashes text = true → split3 dashes text = [a, b, c] →
      yamlLoad b = Except.ok m →
      parse_markdown emptyM yamlLoad text =
        Except.ok ((match m with | some mm => mm | none => emptyM),
          pyLstrip c)) := by
  constructor
  · intro h1 h2
    unfold parse_markdown
    rw [if_pos h1]
    match h3 : split3 dashes text with
    | [] => rfl
    | [a] => rfl
    | [a, b] => rfl
    | [a, b, c] => rw [h3] at h2; simp at h2
    | a :: b :: c :: d :: t => rw [h3] at h2; simp at h2; omega
  · intro a b c m h1 h3 hy
    unfold parse_markdown
    rw [if_pos h1, h3]
    simp only [bind, Except.bind, hy]
    rfl

/-- C1: the code has no handler around `yaml.safe_load`, so when the YAML
block of a well-formed three-part split fails to parse, the error
propagates out of `parse_markdown` — the conversion does *not* continue
with empty metadata as the specification requires. -/
theorem c1_yaml_error_propagates {α ε : Type} (emptyM : α)
    (yamlLoad : Str → Except ε (Option α)) (text a b c : Str) (e : ε)
    (h1 : startsW dashes text = true) (h3 : split3 dashes text = [a, b, c])
    (he : yamlLoad b = Except.error e) :
    parse_markdown emptyM yamlLoad text = Except.error e := by
  unfold parse_markdown
  rw [if_pos h1, h3]
  simp only [bind, Except.bind, he]

/-- Witness for C1 at a concrete input: the document
`---\n{::bad\n---\nbody` whose front-matter block the YAML parser rejects. -/
theorem c1_yaml_error_propagates_witness :
    startsW dashes "---\n\x7b::bad\n---\nbody".data = true ∧
    split3 dashes "---\n\x7b::bad\n---\nbody".data =
      ["".data, "\n\x7b::bad\n".data, "\nbody".data] ∧
    parse_markdown (α := Nat) (ε := String) 0
      (fun _ => Except.error "malformed") "---\n\x7b::bad\n---\nbody".data =
      Except.error "malformed" := by
  refine ⟨by decide, by decide, ?_⟩
  exact c1_yaml_error_propagates 0 (fun _ => Except.error "malformed") _
    "".data "\n\x7b::bad\n".data "\nbody".data "malformed"
    (by decide) (by decide) rfl

/-- Witness for C4 at concrete inputs: an unterminated block and a
well-formed block. -/
theorem c4_front_matter_split_witness :
    parse_markdown (α := Nat) (ε := String) 0 (fun _ => Except.ok none)
      "---abc".data = Except.ok (0, "---abc".data) ∧
    parse_markdown (α := Nat) (ε := String) 0 (fun _ => Except.ok (some 7))
      "---\nt: v\n---\n  body".data = Except.ok (7, "body".data) := by
  constructor
  · exact (c4_front_matter_split 0 (fun _ => Except.ok none) "---abc".data).1
      (by decide) (by decide)
  · have h := (c4_front_matter_split (α := Nat) (ε := String) 0
      (fun _ => Except.ok (some 7)) "---\nt: v\n---\n  body".data).2
      "".data "\nt: v\n".data "\n  body".data (some 7)
      (by decide) (by decide) rfl
    simpa using h

/-- C5: metadata resolution is a pointwise override of the defaults: with
no front matter every resolved field is the built-in default; a key present
in the mapping wins, an absent key falls back to its default, and every key
of the default record stays present after the merge. -/
theorem c5_metadata_defaults :
    (build_html_meta (fun _ => none) =
      { title := "Untitled Post", description := "Markdown to HTML output",
        keywords := "blog, markdown, python", canonical := "", url := "",
        image := "imgs/social.webp", date := "" }) ∧
    (∀ meta : String → Option String, ∀ k v, meta k = some v →
      mergeMeta meta k = some v) ∧
    (∀ meta : String → Option String, ∀ k, meta k = none →
      mergeMeta meta k = DEFAULT_META k) ∧
    (∀ meta : String → Option String, ∀ k,
      (DEFAULT_META k).isSome = true → (mergeMeta meta k).isSome = true) := by
  refine ⟨by decide, ?_, ?_, ?_⟩
  · intro meta k v h
    unfold mergeMeta
    rw [h]
  · intro meta k h
    unfold mergeMeta
    rw [h]
  · intro meta k h
    unfold mergeMeta
    match hm : meta k with
    | some v => simp
    | none => simpa [hm] using h

/-- Witness for C5 at a concrete mapping. -/
theorem c5_metadata_defaults_witness :
    mergeMeta (fun k => if k = "title" then some "Hello" else none) "title" =
      some "Hello" ∧
    mergeMeta (fun k => if k = "title" then some "Hello" else none) "date" =
      DEFAULT_META "date" := by
  constructor
  · exact c5_metadata_defaults.2.1
      (fun k => if k = "title" then some "Hello" else none) "title" "Hello"
      (by decide)
  · exact c5_metadata_defaults.2.2.1
      (fun k => if k = "title" then some "Hello" else none) "date" (by decide)

/-- C6: `build_html` falls back to the `url` value whenever the merged
`canonical` value is empty (absent keys merge to the empty default), uses a
non-empty `canonical` as-is, and interpolates the resolved value into the
canonical link of the head. -/
theorem c6_canonical_fallback (meta : String → Option String) (body : String) :
    ((mergeMeta meta "canonical").getD "" = "" →
      (build_html_meta meta).canonical = (build_html_meta meta).url) ∧
    (∀ v, v ≠ "" → meta "canonical" = some v →
      (build_html_meta meta).canonical = v) ∧
    (∃ pre post : String, build_html meta body =
      pre ++ canonicalLinkOf (build_html_meta meta).canonical ++ post) := by
  refine ⟨?_, ?_, ?_⟩
  · intro h
    unfold build_html_meta
    simp [h]
  · intro v hv h
    unfold build_html_meta
    simp only
    rw [show (mergeMeta meta "canonical").getD "" = v by
      unfold mergeMeta; rw [h]; rfl]
    rw [if_neg hv]
  · refine ⟨"<!DOCTYPE html>\n<html lang=\"en\">\n<head>\n" ++
      ("<meta charset=\"utf-8\" />\n    <meta name=\"viewport\" content=\"width=device-width,initial-scale=1\" />\n    <link rel=\"icon\" href=\"/favicon.ico\" />\n    <meta name=\"color-scheme\" content=\"dark\">\n\n    <title>" ++
       (build_html_meta meta).title ++ "</title>\n    <meta name=\"title\" content=\"" ++
       (build_html_meta meta).title ++ "\" />\n    <meta name=\"description\" content=\"" ++
       (build_html_meta meta).description ++ "\" />\n    <meta name=\"keywords\" content=\"" ++
       (build_html_meta meta).keywords ++ "\" />\n    "),
      ("\n\n    <!-- Open Graph / Facebook -->\n    <meta property=\"og:type\" content=\"website\" />\n    <meta property=\"og:url\" content=\"" ++
       (build_html_meta meta).url ++ "\" />\n    <meta property=\"og:title\" content=\"" ++
       (build_html_meta meta).title ++ "\" />\n    <meta property=\"og:description\" content=\"" ++
       (build_html_meta meta).description ++ "\" />\n    <meta property=\"og:image\" content=\"" ++
       (build_html_meta meta).image ++ "\" />\n\n    <!-- Twitter -->\n    <meta property=\"twitter:card\" content=\"summary_large_image\" />\n    <meta property=\"twitter:url\" content=\"" ++
       (build_html_meta meta).url ++ "\" />\n    <meta property=\"twitter:title\" content=\"" ++
       (build_html_meta meta).title ++ "\" />\n    <meta property=\"twitter:description\" content=\"" ++
       (build_html_meta meta).description ++ "\" />\n    <meta property=\"twitter:image\" content=\"" ++
       (build_html_meta meta).image ++ "\" />\n    " ++ CSS_LINK ++ "\n    " ++
       STYLE_BLOCK ++ "\n    " ++ MATHJAX_SCRIPT) ++
      ("\n</head>\n<body>\n<main class=\"container\">\n" ++ body ++
       "\n</main>\n</body>\n</html>"), ?_⟩
    unfold build_html headOf
    simp [String.append_assoc]

/-- Witness for C6 at a concrete mapping with empty canonical and set url. -/
theorem c6_canonical_fallback_witness :
    (build_html_meta (fun k => if k = "url" then some "https://e.x" else none)).canonical =
      (build_html_meta (fun k => if k = "url" then some "https://e.x" else none)).url ∧
    (build_html_meta (fun k => if k = "canonical" then some "https://c.x" else none)).canonical =
      "https://c.x" := by
  constructor
  · exact (c6_canonical_fallback
      (fun k => if k = "url" then some "https://e.x" else none) "").1 (by decide)
  · exact (c6_canonical_fallback
      (fun k => if k = "canonical" then some "https://c.x" else none) "").2.1
      "https://c.x" (by decide) (by decide)

/-- C7: with a falsy date the body is returned byte-identical; with a
non-empty date and no heading match the body is returned unchanged; with a
heading match the subtitle (containing the date) is inserted immediately
after the end of the matched `<h1...>...</h1>` region, the rest unchanged. -/
theorem c7_date_subtitle (html date : Str) :
    (inject_date_subtitle html [] = html) ∧
    (date ≠ [] → searchH1 html = none → inject_date_subtitle html date = html) ∧
    (∀ p r, date ≠ [] → searchH1 html = some (p, r) →
      inject_date_subtitle html date = p ++ subtitleOf date ++ r ∧
      html = p ++ r ∧
      ∃ q cl, p = q ++ cl ∧ cl.map lcc = h1CloseLit.map lcc) := by
  refine ⟨by simp [inject_date_subtitle], ?_, ?_⟩
  · intro hd hs
    unfold inject_date_subtitle
    rw [if_neg hd, hs]
  · intro p r hd hs
    obtain ⟨e1, q, cl, e2, e3⟩ := searchH1_sound hs
    refine ⟨?_, e1, q, cl, e2, e3⟩
    unfold inject_date_subtitle
    rw [if_neg hd, hs]

/-- Witness for C7 at a concrete fragment and date. -/
theorem c7_date_subtitle_witness :
    inject_date_subtitle "<h1>T</h1>x".data "2024-03-15".data =
      "<h1>T</h1>".data ++ subtitleOf "2024-03-15".data ++ "x".data ∧
    inject_date_subtitle "<p>n</p>".data "2024-03-15".data = "<p>n</p>".data := by
  constructor
  · exact ((c7_date_subtitle "<h1>T</h1>x".data "2024-03-15".data).2.2
      "<h1>T</h1>".data "x".data (by decide) (by decide)).1
  · exact (c7_date_subtitle "<p>n</p>".data "2024-03-15".data).2.1
      (by decide) (by decide)

/-- C10: `run.py` fails at its import line for every invocation — the name
`MarkdownConverter` is not in the module namespace of
`markdown_converter.py` — so the success path is unreachable. -/
theorem c10_run_py_import_error (argv : List String) (isfile : String → Bool) :
    run_py argv isfile = RunResult.importError ∧
    markdown_converter_names.contains "MarkdownConverter" = false := by
  have hc : markdown_converter_names.contains "MarkdownConverter" = false := by
    decide
  exact ⟨by unfold run_py; rw [hc]; simp, hc⟩

/-! ### Step equations for the two scanners -/

theorem urlSub_nil : urlSub [] = [] := by simp [urlSub]

theorem urlSub_cons_some {c : Char} {cs u r : Str}
    (h : urlAt (c :: cs) = some (u, r)) :
    urlSub (c :: cs) = anchorOf u ++ urlSub r := by
  rw [urlSub]
  split
  · rename_i u2 r2 heq
    rw [heq] at h
    injection h with h
    injection h with h1 h2
    subst h1 h2
    rfl
  · rename_i heq
    rw [heq] at h
    exact absurd h (by simp)

theorem urlSub_cons_none {c : Char} {cs : Str} (h : urlAt (c :: cs) = none) :
    urlSub (c :: cs) = c :: urlSub cs := by
  rw [urlSub]
  split
  · rename_i u2 r2 heq
    rw [heq] at h
    exact absurd h (by simp)
  · rfl

theorem convert_img_captions_nil : convert_img_captions [] = [] := by
  simp [convert_img_captions]

theorem convert_img_captions_cons_some {c : Char} {cs m g r : Str}
    (h : matchPTag (c :: cs) = some (m, g, r)) :
    convert_img_captions (c :: cs) = replF m g ++ convert_img_captions r := by
  rw [convert_img_captions]
  split
  · rename_i m2 g2 r2 heq
    rw [heq] at h
    injection h with h
    injection h with h1 h
    injection h with h2 h3
    subst h1 h2 h3
    rfl
  · rename_i heq
    rw [heq] at h
    exact absurd h (by simp)

theorem convert_img_captions_cons_none {c : Char} {cs : Str}
    (h : matchPTag (c :: cs) = none) :
    convert_img_captions (c :: cs) = c :: convert_img_captions cs := by
  rw [convert_img_captions]
  split
  · rename_i m2 g2 r2 heq
    rw [heq] at h
    exact absurd h (by simp)
  · rfl

/-! ### URL linkification (C8) -/

/-- The literal `http://`. -/
def httpLit : Str := ['h', 't', 't', 'p', ':', '/', '/']

/-- The literal `https://`. -/
def httpsLit : Str := ['h', 't', 't', 'p', 's', ':', '/', '/']

/-- Whether a URL scheme (`http://` or `https://`) starts at the head. -/
def schemeAt (s : Str) : Bool := startsW httpLit s || startsW httpsLit s

theorem urlAt_none_of_not_scheme {s : Str} (h : schemeAt s = false) :
    urlAt s = none := by
  unfold urlAt
  split
  · split
    · rename_i r2
      exfalso
      simp [schemeAt, startsW, httpLit, httpsLit] at h
    · rename_i r2
      exfalso
      simp [schemeAt, startsW, httpLit, httpsLit] at h
    · rfl
  · rfl

theorem urlAt_of_url {u v b : Str}
    (hu : u = httpLit ++ v ∨ u = httpsLit ++ v) (hv : v ≠ [])
    (hnws : ∀ c ∈ u, isWs c = false)
    (hb : b = [] ∨ ∃ d ds, b = d :: ds ∧ isWs d = true) :
    urlAt (u ++ b) = some (u, b) := by
  have hsplit : ((v ++ b).takeWhile (fun c => ¬ isWs c) = v ∧
      (v ++ b).dropWhile (fun c => ¬ isWs c) = b) := by
    refine takeWhile_append_eq ?_ ?_
    · intro c hc
      have : isWs c = false := by
        rcases hu with hu | hu <;> exact hnws c (by simp [hu, hc])
      simp [this]
    · intro d ds hds
      rcases hb with hb | ⟨d2, ds2, hb2, hw2⟩
      · rw [hb] at hds; exact absurd hds (by simp)
      · rw [hb2] at hds
        injection hds with hd _
        subst hd
        simp [hw2]
  rcases hu with hu | hu <;> subst hu
  · rw [show (httpLit ++ v) ++ b = 'h' :: 't' :: 't' :: 'p' ::
        (':' :: '/' :: '/' :: (v ++ b)) by simp [httpLit]]
    unfold urlAt
    simp only
    rw [hsplit.1, hsplit.2, if_neg hv]
    simp [httpLit]
  · rw [show (httpsLit ++ v) ++ b = 'h' :: 't' :: 't' :: 'p' ::
        ('s' :: ':' :: '/' :: '/' :: (v ++ b)) by simp [httpsLit]]
    unfold urlAt
    simp only
    rw [hsplit.1, hsplit.2, if_neg hv]
    simp [httpsLit]

/-- C8: captions are linkified exactly as the claim states.  First part:
caption text with no URL scheme anywhere is emitted unchanged.  Second
part: a maximal URL token (scheme followed by a nonempty run of
non-whitespace, ended by whitespace or the end of the caption) is matched
by the URL pattern.  Third part: the leftmost such match is replaced by the
anchor `<a href="url" target="_blank" rel="noopener noreferrer">url</a>`
(`anchorOf`) and scanning continues on the rest. -/
theorem c8_caption_linkify :
    (∀ cap : Str, (∀ k, k ≤ cap.length → schemeAt (cap.drop k) = false) →
      urlSub cap = cap) ∧
    (∀ u v b : Str,
      (u = httpLit ++ v ∨ u = httpsLit ++ v) → v ≠ [] →
      (∀ c ∈ u, isWs c = false) →
      (b = [] ∨ ∃ d ds, b = d :: ds ∧ isWs d = true) →
      urlAt (u ++ b) = some (u, b)) ∧
    (∀ a u b : Str, urlAt (u ++ b) = some (u, b) →
      (∀ k, k < a.length → schemeAt ((a ++ (u ++ b)).drop k) = false) →
      urlSub (a ++ (u ++ b)) = a ++ (anchorOf u ++ urlSub b)) := by
  refine ⟨?_, fun u v b h1 h2 h3 h4 => urlAt_of_url h1 h2 h3 h4, ?_⟩
  · intro cap
    induction cap with
    | nil => intro _; exact urlSub_nil
    | cons c cs ih =>
      intro hk
      have h0 : schemeAt (c :: cs) = false := by
        have := hk 0 (by simp)
        simpa using this
      rw [urlSub_cons_none (urlAt_none_of_not_scheme h0)]
      rw [ih (fun k hkk => by
        have := hk (k + 1) (by simpa using hkk)
        simpa using this)]
  · intro a u b hm
    induction a with
    | nil =>
      intro _
      obtain ⟨_, hune⟩ := urlAt_length hm
      match u, hune with
      | uc :: ut, _ =>
        rw [List.nil_append, List.cons_append]
        rw [urlSub_cons_some (by rw [← List.cons_append]; exact hm)]
        simp
    | cons x a ih =>
      intro hk
      have h0 : schemeAt (x :: (a ++ (u ++ b))) = false := by
        have := hk 0 (by simp)
        simpa using this
      rw [List.cons_append, urlSub_cons_none (urlAt_none_of_not_scheme h0)]
      rw [ih (fun k hkk => by
        have := hk (k + 1) (by simpa using hkk)
        simpa using this)]
      simp

/-! ### Caption precedence (C3) and the whitespace-title edge case (C9) -/

theorem pyStrip_eq_nil {T : Str} (h : ∀ c ∈ T, isWs c = true) :
    pyStrip T = [] := by
  unfold pyStrip
  have : T.dropWhile isWs = [] := by
    induction T with
    | nil => rfl
    | cons c cs ih =>
      rw [List.dropWhile_cons, if_pos (h c (by simp))]
      exact ih (fun d hd => h d (by simp [hd]))
  rw [this]
  rfl

/-- A standalone image paragraph `<p>` ++ g ++ `</p>` where the image tag
`g` is `<img` (case-insensitively), a nonempty run of non-`>` attribute
characters, and `>`. -/
def soloImgP (g : Str) : Str := "<p>".data ++ g ++ "</p>".data

theorem soloImgP_match {o2 attrs : Str}
    (ho2 : o2.map lcc = imgLit.map lcc) (hne : attrs ≠ [])
    (hgt : ∀ c ∈ attrs, c ≠ '>') :
    matchPTag (soloImgP (o2 ++ attrs ++ ['>'])) =
      some (soloImgP (o2 ++ attrs ++ ['>']), o2 ++ attrs ++ ['>'], []) := by
  have hs : PShape (soloImgP (o2 ++ attrs ++ ['>'])) (o2 ++ attrs ++ ['>']) := by
    refine ⟨"<p>".data, [], o2, attrs, [], "</p>".data, ?_, rfl, rfl,
      by simp, ho2, hne, hgt, by simp, rfl⟩
    simp [soloImgP]
  have := matchPTag_of_shape hs []
  simpa using this

theorem soloImgP_cons (g : Str) :
    soloImgP g = '<' :: ('p' :: ('>' :: (g ++ "</p>".data))) := by
  simp [soloImgP]

/-- C3 (amended): caption precedence on a standalone image paragraph.
If the tag carries a `title` attribute whose value `T` strips to a
non-empty string, the result is a figure whose caption is the *stripped*
`T` (URL-linkified); if it carries no `title` attribute but an `alt`
attribute whose value `A` strips to a non-empty string, the caption is the
stripped `A` (URL-linkified); with neither attribute the markup is left
unchanged. -/
theorem c3_caption_precedence (o2 attrs : Str)
    (ho2 : o2.map lcc = imgLit.map lcc) (hne : attrs ≠ [])
    (hgt : ∀ c ∈ attrs, c ≠ '>') :
    (∀ T, findAttr titleLit (o2 ++ attrs ++ ['>']) = some T →
      pyStrip T ≠ [] →
      convert_img_captions (soloImgP (o2 ++ attrs ++ ['>'])) =
        "<figure>".data ++ (o2 ++ attrs ++ ['>']) ++ "<figcaption>".data ++
          urlSub (pyStrip T) ++ "</figcaption></figure>".data) ∧
    (∀ A, findAttr titleLit (o2 ++ attrs ++ ['>']) = none →
      findAttr altLit (o2 ++ attrs ++ ['>']) = some A →
      pyStrip A ≠ [] →
      convert_img_captions (soloImgP (o2 ++ attrs ++ ['>'])) =
        "<figure>".data ++ (o2 ++ attrs ++ ['>']) ++ "<figcaption>".data ++
          urlSub (pyStrip A) ++ "</figcaption></figure>".data) ∧
    (findAttr titleLit (o2 ++ attrs ++ ['>']) = none →
      findAttr altLit (o2 ++ attrs ++ ['>']) = none →
      convert_img_captions (soloImgP (o2 ++ attrs ++ ['>'])) =
        soloImgP (o2 ++ attrs ++ ['>'])) := by
  have hm := soloImgP_match ho2 hne hgt
  rw [soloImgP_cons] at hm
  refine ⟨?_, ?_, ?_⟩
  · intro T ht hts
    rw [soloImgP_cons, convert_img_captions_cons_some hm,
      convert_img_captions_nil]
    unfold replF captionOf
    rw [ht]
    simp only [if_neg hts]
    simp [soloImgP, List.append_assoc]
  · intro A ht ha has
    rw [soloImgP_cons, convert_img_captions_cons_some hm,
      convert_img_captions_nil]
    unfold replF captionOf
    rw [ht, ha]
    simp only [if_neg has]
    simp [soloImgP, List.append_assoc]
  · intro ht ha
    rw [soloImgP_cons, convert_img_captions_cons_some hm,
      convert_img_captions_nil]
    unfold replF captionOf
    rw [ht, ha]
    simp [soloImgP, List.append_assoc]

/-- Counterexample for C3 as literally stated: the image tag carries the
non-empty title `" "` (and non-empty alt `"A"`), yet no figure is produced
at all — the fragment is returned unchanged, not wrapped with caption
`" "` as the claim predicts. -/
theorem c3_counterexample :
    convert_img_captions "<p><img src=\"i.png\" title=\" \" alt=\"A\"></p>".data =
      "<p><img src=\"i.png\" title=\" \" alt=\"A\"></p>".data ∧
    convert_img_captions "<p><img src=\"i.png\" title=\" \" alt=\"A\"></p>".data ≠
      "<figure><img src=\"i.png\" title=\" \" alt=\"A\"><figcaption> </figcaption></figure>".data := by
  have hm : matchPTag "<p><img src=\"i.png\" title=\" \" alt=\"A\"></p>".data =
      some ("<p><img src=\"i.png\" title=\" \" alt=\"A\"></p>".data,
        "<img src=\"i.png\" title=\" \" alt=\"A\">".data, []) := by decide
  have hc : captionOf "<img src=\"i.png\" title=\" \" alt=\"A\">".data =
      some [] := by decide
  have h1 : convert_img_captions
      "<p><img src=\"i.png\" title=\" \" alt=\"A\"></p>".data =
      "<p><img src=\"i.png\" title=\" \" alt=\"A\"></p>".data := by
    rw [show "<p><img src=\"i.png\" title=\" \" alt=\"A\"></p>".data =
      '<' :: "p><img src=\"i.png\" title=\" \" alt=\"A\"></p>".data from rfl]
    rw [convert_img_captions_cons_some (by exact hm), convert_img_captions_nil]
    unfold replF
    rw [hc]
    simp
  refine ⟨h1, ?_⟩
  rw [h1]
  decide

/-- Witness for C3 (amended) at concrete tags: a title wrapped in spaces
produces the stripped caption, an alt-only tag produces the alt caption,
and an attribute-free tag is left unchanged. -/
theorem c3_caption_precedence_witness :
    convert_img_captions (soloImgP "<img x=1 title=\" T \" alt=\"A\">".data) =
      "<figure>".data ++ "<img x=1 title=\" T \" alt=\"A\">".data ++
        "<figcaption>".data ++ urlSub (pyStrip " T ".data) ++
        "</figcaption></figure>".data ∧
    convert_img_captions (soloImgP "<img x=1 alt=\"A\">".data) =
      "<figure>".data ++ "<img x=1 alt=\"A\">".data ++ "<figcaption>".data ++
        urlSub (pyStrip "A".data) ++ "</figcaption></figure>".data ∧
    convert_img_captions (soloImgP "<img src=\"i.png\">".data) =
      soloImgP "<img src=\"i.png\">".data := by
  refine ⟨?_, ?_, ?_⟩
  · have h := (c3_caption_precedence "<img".data
      " x=1 title=\" T \" alt=\"A\"".data (by decide) (by decide) (by decide)).1
      " T ".data (by decide) (by decide)
    simpa using h
  · have h := (c3_caption_precedence "<img".data " x=1 alt=\"A\"".data
      (by decide) (by decide) (by decide)).2.1
      "A".data (by decide) (by decide) (by decide)
    simpa using h
  · have h := (c3_caption_precedence "<img".data " src=\"i.png\"".data
      (by decide) (by decide) (by decide)).2.2 (by decide) (by decide)
    simpa using h

/-- C9: on a standalone image paragraph whose `title` attribute value is
non-empty but all whitespace, the fragment is returned completely
unchanged — no figure is produced even when a non-empty `alt` attribute is
present, because the `alt` attribute is not consulted once `title`
matches (`elif`). -/
theorem c9_whitespace_title (o2 attrs T A : Str)
    (ho2 : o2.map lcc = imgLit.map lcc) (hne : attrs ≠ [])
    (hgt : ∀ c ∈ attrs, c ≠ '>')
    (ht : findAttr titleLit (o2 ++ attrs ++ ['>']) = some T)
    (_hT : T ≠ []) (hTws : ∀ c ∈ T, isWs c = true)
    (_ha : findAttr altLit (o2 ++ attrs ++ ['>']) = some A)
    (_hA : pyStrip A ≠ []) :
    convert_img_captions (soloImgP (o2 ++ attrs ++ ['>'])) =
      soloImgP (o2 ++ attrs ++ ['>']) := by
  have hm := soloImgP_match ho2 hne hgt
  rw [soloImgP_cons] at hm
  rw [soloImgP_cons, convert_img_captions_cons_some hm,
    convert_img_captions_nil]
  unfold replF captionOf
  rw [ht]
  simp only [pyStrip_eq_nil hTws, if_pos rfl]
  simp [soloImgP, List.append_assoc]

/-- Witness for C9 at a concrete tag. -/
theorem c9_whitespace_title_witness :
    convert_img_captions (soloImgP "<img src=\"i\" title=\"  \" alt=\"hello\">".data) =
      soloImgP "<img src=\"i\" title=\"  \" alt=\"hello\">".data := by
  have h := c9_whitespace_title "<img".data
    " src=\"i\" title=\"  \" alt=\"hello\"".data "  ".data "hello".data
    (by decide) (by decide) (by decide) (by decide) (by decide) (by decide)
    (by decide) (by decide)
  simpa using h

/-! ### Idempotence of the caption post-processor (C2)

The proof shows that a second pass of the scanner can never find a match it
would change: the output of one pass consists of copied characters (whose
suffixes already failed to match in a way preserved by the rewriting),
unchanged matches (which match again and are left unchanged again), and
figure replacements (inside which, and across whose boundaries, the
paragraph-image pattern can never match). -/

theorem ne_of_lcc {c d : Char} (h : lcc c ≠ lcc d) : c ≠ d :=
  fun hc => h (by rw [hc])

theorem ws_ne_lt {c : Char} (h : isWs c = true) : c ≠ '<' := by
  intro hc; subst hc; simp [isWs] at h

theorem ws_ne_quot {c : Char} (h : isWs c = true) : c ≠ '"' := by
  intro hc; subst hc; simp [isWs] at h

theorem expectCI_pLit_none1 {c : Char} {s : Str} (h : c ≠ '<') :
    expectCI pLit (c :: s) = none := by
  unfold pLit expectCI
  rw [if_neg (fun hc => h (lcc_eq_lt_iff.mp (by simpa using hc)))]

theorem expectCI_pLit_none2 {c1 c2 : Char} {s : Str} (h : lcc c2 ≠ 'p') :
    expectCI pLit (c1 :: c2 :: s) = none := by
  unfold pLit expectCI
  by_cases h1 : lcc c1 = lcc '<'
  · rw [if_pos h1]
    unfold expectCI
    rw [if_neg (by simpa using h)]
  · rw [if_neg h1]

theorem expectCI_pLit_none3 {c1 c2 c3 : Char} {s : Str} (h : c3 ≠ '>') :
    expectCI pLit (c1 :: c2 :: c3 :: s) = none := by
  unfold pLit expectCI
  by_cases h1 : lcc c1 = lcc '<'
  · rw [if_pos h1]
    unfold expectCI
    by_cases h2 : lcc c2 = lcc 'p'
    · rw [if_pos h2]
      unfold expectCI
      rw [if_neg (fun hc => h (lcc_eq_gt_iff.mp (by simpa using hc)))]
    · rw [if_neg h2]
  · rw [if_neg h1]

theorem matchPTag_none_of_pLit {s : Str} (h : expectCI pLit s = none) :
    matchPTag s = none := by
  unfold matchPTag
  rw [h]

theorem matchPTag_none_head1 {c : Char} {s : Str} (h : c ≠ '<') :
    matchPTag (c :: s) = none :=
  matchPTag_none_of_pLit (expectCI_pLit_none1 h)

theorem matchPTag_none_head2 {c1 c2 : Char} {s : Str} (h : lcc c2 ≠ 'p') :
    matchPTag (c1 :: c2 :: s) = none :=
  matchPTag_none_of_pLit (expectCI_pLit_none2 h)

theorem matchPTag_none_head3 {c1 c2 c3 : Char} {s : Str} (h : c3 ≠ '>') :
    matchPTag (c1 :: c2 :: c3 :: s) = none :=
  matchPTag_none_of_pLit (expectCI_pLit_none3 h)

/-- After an initial `<p>` the matcher skips whitespace and requires `<img`;
if the first two remaining characters are not `<` and (case-insensitive)
`i`, the match fails. -/
theorem matchPTag_none_no_img {c2 : Char} (h2 : lcc c2 = 'p') {C : Str}
    (hC : ∀ d1 d2 t, C.dropWhile isWs = d1 :: d2 :: t →
      d1 ≠ '<' ∨ lcc d2 ≠ 'i') :
    matchPTag ('<' :: c2 :: '>' :: C) = none := by
  have hexp : expectCI pLit ('<' :: c2 :: '>' :: C) =
      some (['<', c2, '>'], C) := by
    unfold pLit expectCI
    rw [if_pos (by simp)]
    unfold expectCI
    rw [if_pos (by simpa using h2)]
    unfold expectCI
    rw [if_pos (by simp)]
    rfl
  unfold matchPTag
  rw [hexp]
  simp only
  match hD : C.dropWhile isWs with
  | [] => rfl
  | [d1] =>
    unfold imgLit expectCI
    by_cases hd : lcc d1 = lcc '<'
    · rw [if_pos hd]; rfl
    · rw [if_neg hd]
  | d1 :: d2 :: t =>
    rcases hC d1 d2 t hD with hd | hd
    · unfold imgLit expectCI
      rw [if_neg (fun hc => hd (lcc_eq_lt_iff.mp (by simpa using hc)))]
    · unfold imgLit expectCI
      by_cases h1 : lcc d1 = lcc '<'
      · rw [if_pos h1]
        unfold expectCI
        rw [if_neg (by simpa using hd)]
      · rw [if_neg h1]

/-- A nonempty run of non-`>` characters followed by `>` and then a
whitespace-run-plus-`</p>`-style continuation can never start a match:
either the head fails the `<p>` literal, or the `<img` literal fails right
after it. -/
theorem matchPTag_attrs_gt_none {aT : Str} (hgt : ∀ c ∈ aT, c ≠ '>')
    {C : Str}
    (hC : ∀ c2, lcc c2 = 'p' → matchPTag ('<' :: c2 :: '>' :: C) = none) :
    matchPTag (aT ++ '>' :: C) = none := by
  match aT, hgt with
  | [], _ => exact matchPTag_none_head1 (by decide)
  | [a], hgt =>
    by_cases ha : a = '<'
    · subst ha
      exact matchPTag_none_head2 (by decide)
    · exact matchPTag_none_head1 ha
  | [a, b], hgt =>
    by_cases ha : a = '<'
    · subst ha
      by_cases hb : lcc b = 'p'
      · exact hC b hb
      · exact matchPTag_none_head2 hb
    · exact matchPTag_none_head1 ha
  | a :: b :: d :: t, hgt =>
    by_cases ha : a = '<'
    · subst ha
      by_cases hb : lcc b = 'p'
      · exact matchPTag_none_head3 (hgt d (by simp))
      · exact matchPTag_none_head2 hb
    · exact matchPTag_none_head1 ha

/-- `Safe T X`: no suffix of `T` (continued by `X`) starts a match. -/
def Safe (T X : Str) : Prop :=
  ∀ k, k < T.length → matchPTag (T.drop k ++ X) = none

theorem safe_append {T1 T2 X : Str} (h1 : Safe T1 (T2 ++ X))
    (h2 : Safe T2 X) : Safe (T1 ++ T2) X := by
  intro k hk
  rcases Nat.lt_or_ge k T1.length with hlt | hge
  · have he : (T1 ++ T2).drop k ++ X = T1.drop k ++ (T2 ++ X) := by
      rw [List.drop_append_of_le_length (Nat.le_of_lt hlt)]
      simp [List.append_assoc]
    rw [he]
    exact h1 k hlt
  · have hk2 : k - T1.length < T2.length := by
      simp [List.length_append] at hk
      omega
    have he : (T1 ++ T2).drop k = T2.drop (k - T1.length) := by
      conv_lhs => rw [show k = T1.length + (k - T1.length) by omega]
      rw [List.drop_append]
    rw [he]
    exact h2 _ hk2

/-- Lists of characters that are never `<` are safe in any context. -/
theorem safe_of_ne_lt {T : Str} (hT : ∀ c ∈ T, c ≠ '<') (X : Str) :
    Safe T X := by
  intro k hk
  match hd : T.drop k with
  | [] =>
    exfalso
    have hlen := congrArg List.length hd
    simp [List.length_drop] at hlen
    omega
  | d :: ds =>
    refine matchPTag_none_head1 (hT d ?_)
    exact List.drop_subset k T (hd ▸ List.mem_cons_self d ds)

/-- A list starting with `<` then a non-`p` character, whose tail contains
no further `<`, is safe in any context. -/
theorem safe_of_head2 {c2 : Char} {t : Str} (hc2 : lcc c2 ≠ 'p')
    (hc2lt : c2 ≠ '<') (ht : ∀ c ∈ t, c ≠ '<') (X : Str) :
    Safe ('<' :: c2 :: t) X := by
  intro k hk
  match k with
  | 0 => exact matchPTag_none_head2 hc2
  | n + 1 =>
    have hsub : ('<' :: c2 :: t).drop (n + 1) ⊆ c2 :: t := by
      rw [List.drop_succ_cons]
      exact List.drop_subset n (c2 :: t)
    match hd : ('<' :: c2 :: t).drop (n + 1) with
    | [] =>
      exfalso
      have hlen := congrArg List.length hd
      simp [List.length_drop] at hlen hk
      omega
    | d :: ds =>
      have hdm : d ∈ c2 :: t := hsub (hd ▸ List.mem_cons_self d ds)
      refine matchPTag_none_head1 ?_
      rcases List.mem_cons.mp hdm with hdc | hdt
      · subst hdc
        exact hc2lt
      · exact ht d hdt

/-- Witness for C8 at concrete captions. -/
theorem c8_caption_linkify_witness :
    urlSub "no links".data = "no links".data ∧
    urlSub "see http://x.y end".data =
      "see ".data ++ (anchorOf "http://x.y".data ++ urlSub " end".data) := by
  constructor
  · exact c8_caption_linkify.1 "no links".data (by decide)
  · exact c8_caption_linkify.2.2 "see ".data "http://x.y".data " end".data
      (c8_caption_linkify.2.1 "http://x.y".data "x.y".data " end".data
        (Or.inl (by decide)) (by decide) (by decide)
        (Or.inr ⟨' ', "end".data, by decide, by decide⟩)) (by decide)

/-! ### The `>`-guard invariant of linkified captions -/

/-- Guard invariant: every `>` in `T` is immediately preceded by `"` or
`a` — true of linkified caption text, whose only `>` characters come from
the fixed anchor templates. -/
def gtG (T : Str) : Prop :=
  ∀ u x v, T = u ++ x :: '>' :: v → x = '"' ∨ x = 'a'

theorem gtG_nil : gtG [] := by
  intro u x v h
  exact absurd h (by simp)

theorem gtG_cons {c : Char} {T : Str} (h1 : gtG T)
    (h2 : ∀ v, T = '>' :: v → c = '"' ∨ c = 'a') : gtG (c :: T) := by
  intro u x v hv
  match u, hv with
  | [], hv =>
    injection hv with hx hT
    subst hx
    exact h2 v hT
  | u1 :: us, hv =>
    injection hv with _ hT
    exact h1 us x v hT

theorem append_head {a : Char} {l W : Str} {c : Char} {cs : Str}
    (h : (a :: l) ++ W = c :: cs) : c = a := by
  rw [List.cons_append] at h
  injection h with h1 h2
  exact h1.symm

theorem gtG_append {T1 T2 : Str} (h1 : gtG T1) (h2 : gtG T2)
    (hb : ∀ c cs, T2 = c :: cs → c ≠ '>') : gtG (T1 ++ T2) := by
  intro u x v hv
  rcases List.append_eq_append_iff.mp hv with ⟨w, hw1, hw2⟩ | ⟨w, hw1, hw2⟩
  · exact h2 w x v hw2
  · match w, hw2 with
    | [], hw2 => exact h2 [] x v (by simpa using hw2.symm)
    | [w1], hw2 =>
      exfalso
      rw [List.cons_append, List.nil_append] at hw2
      injection hw2 with hx hT
      exact hb '>' v hT.symm rfl
    | w1 :: w2 :: ws, hw2 =>
      rw [List.cons_append, List.cons_append] at hw2
      injection hw2 with hx hT
      injection hT with hgt hT2
      subst hx hgt
      exact h1 u x ws (by rw [hw1])

theorem gtG_of_no_gt {T : Str} (h : ∀ c ∈ T, c ≠ '>') : gtG T := by
  intro u x v hv
  exact absurd rfl (h '>' (by simp [hv]))

/-- Positional form of the guard, decidable on concrete lists. -/
theorem gtG_of_idx {T : Str}
    (h : ∀ i, i < T.length → T.getD (i + 1) ' ' = '>' →
      T.getD i ' ' = '"' ∨ T.getD i ' ' = 'a') : gtG T := by
  intro u x v hv
  have hx : T.getD u.length ' ' = x := by
    rw [hv, List.getD_eq_get?, List.get?_append_right (Nat.le_refl _)]
    simp
  have hgt : T.getD (u.length + 1) ' ' = '>' := by
    rw [hv, List.getD_eq_get?, List.get?_append_right (by omega)]
    simp [show u.length + 1 - u.length = 1 by omega]
  have hlen : u.length < T.length := by
    rw [hv]
    simp [List.length_append]
  rcases h u.length hlen hgt with hc | hc
  · exact Or.inl (by rw [← hx, hc])
  · exact Or.inr (by rw [← hx, hc])

/-- The anchor template literals (explicit character lists). -/
def aLit1 : Str := ['<', 'a', ' ', 'h', 'r', 'e', 'f', '=', '"']

/-- Between the two URL copies of the anchor. -/
def aLit2 : Str :=
  ['"', ' ', 't', 'a', 'r', 'g', 'e', 't', '=', '"', '_', 'b', 'l', 'a',
   'n', 'k', '"', ' ', 'r', 'e', 'l', '=', '"', 'n', 'o', 'o', 'p', 'e',
   'n', 'e', 'r', ' ', 'n', 'o', 'r', 'e', 'f', 'e', 'r', 'r', 'e', 'r',
   '"', '>']

/-- The anchor closing tag. -/
def aLit3 : Str := ['<', '/', 'a', '>']

theorem anchorOf_eq (u : Str) :
    anchorOf u = aLit1 ++ (u ++ (aLit2 ++ (u ++ aLit3))) := by
  unfold anchorOf
  rw [show "<a href=\"".data = aLit1 from rfl,
    show "\" target=\"_blank\" rel=\"noopener noreferrer\">".data = aLit2 from rfl,
    show "</a>".data = aLit3 from rfl]
  simp [List.append_assoc]

/-- The invariants of linkified caption text: the guard holds and the text
never starts with `>` (for captions that contain no quote and no `>`). -/
theorem urlSub_inv : ∀ (n : Nat) (cap : Str), cap.length ≤ n →
    (∀ c ∈ cap, c ≠ '"') → (∀ c ∈ cap, c ≠ '>') →
    gtG (urlSub cap) ∧ (∀ c cs, urlSub cap = c :: cs → c ≠ '>') := by
  intro n
  induction n with
  | zero =>
    intro cap hl _ _
    have hnil : cap = [] := List.eq_nil_of_length_eq_zero (by omega)
    subst hnil
    rw [urlSub_nil]
    exact ⟨gtG_nil, by simp⟩
  | succ n ih =>
    intro cap hl hq hg
    match cap with
    | [] =>
      rw [urlSub_nil]
      exact ⟨gtG_nil, by simp⟩
    | c :: cs =>
      match hu : urlAt (c :: cs) with
      | none =>
        rw [urlSub_cons_none hu]
        have hcs := ih cs (by simp at hl; omega)
          (fun d hd => hq d (by simp [hd])) (fun d hd => hg d (by simp [hd]))
        refine ⟨gtG_cons hcs.1 ?_, ?_⟩
        · intro v hv
          exact absurd rfl (hcs.2 '>' v hv)
        · intro d ds hds
          injection hds with h1 h2
          exact h1 ▸ hg c (by simp)
      | some (u0, r) =>
        obtain ⟨heq, hne⟩ := urlAt_length hu
        rw [urlSub_cons_some hu]
        have hu0g : ∀ d ∈ u0, d ≠ '>' := fun d hd =>
          hg d (by rw [heq]; simp [hd])
        have hrest := ih r (by
            have hlt := urlAt_length_lt hu
            simp at hlt hl
            omega)
          (fun d hd => hq d (by rw [heq]; simp [hd]))
          (fun d hd => hg d (by rw [heq]; simp [hd]))
        have hu0head : ∀ W, ∀ c2 cs2, u0 ++ W = c2 :: cs2 → c2 ≠ '>' := by
          match u0, hne with
          | e :: es, _ =>
            intro W c2 cs2 h
            rw [append_head h]
            exact hu0g e (by simp)
        have hL2head : ∀ W, ∀ c2 cs2, aLit2 ++ W = c2 :: cs2 → c2 ≠ '>' := by
          intro W c2 cs2 h
          have h2 : c2 = '"' :=
            append_head (show ('"' :: aLit2.tail) ++ W = c2 :: cs2 from h)
          rw [h2]
          decide
        have hL3head : ∀ W, ∀ c2 cs2, aLit3 ++ W = c2 :: cs2 → c2 ≠ '>' := by
          intro W c2 cs2 h
          have h2 : c2 = '<' :=
            append_head (show ('<' :: aLit3.tail) ++ W = c2 :: cs2 from h)
          rw [h2]
          decide
        have hanchor : gtG (anchorOf u0) := by
          rw [anchorOf_eq]
          refine gtG_append (gtG_of_idx (by decide)) ?_ (hu0head _)
          refine gtG_append (gtG_of_no_gt hu0g) ?_ (hL2head _)
          refine gtG_append (gtG_of_idx (by decide)) ?_ (hu0head _)
          refine gtG_append (gtG_of_no_gt hu0g)
            (gtG_of_idx (by decide)) ?_
          intro c2 cs2 h
          unfold aLit3 at h
          injection h with g1 g2
          rw [← g1]
          decide
        constructor
        · exact gtG_append hanchor hrest.1 hrest.2
        · intro d ds hds
          rw [anchorOf_eq] at hds
          have h2 : d = '<' :=
            append_head (show ('<' :: aLit1.tail) ++
              (u0 ++ (aLit2 ++ (u0 ++ aLit3))) ++ urlSub r = d :: ds from hds)
          rw [h2]
          decide

/-! ### No match can start inside a figure replacement -/

theorem gtG_tail {c : Char} {T : Str} (h : gtG (c :: T)) : gtG T :=
  fun u x v hv => h (c :: u) x v (by rw [hv]; rfl)

/-- Text satisfying the guard invariant, followed by a `<`-headed
continuation, is safe: the pattern `<p>` can never start in it. -/
theorem safe_of_gtG : ∀ (T : Str), gtG T → ∀ xs : Str, Safe T ('<' :: xs) := by
  intro T
  induction T with
  | nil =>
    intro _ xs k hk
    simp at hk
  | cons c cs ih =>
    intro hg xs k hk
    match k with
    | 0 =>
      simp only [List.drop_zero, List.cons_append]
      by_cases hc : c = '<'
      · subst hc
        match cs with
        | [] => exact matchPTag_none_head2 (by decide)
        | b :: bs =>
          by_cases hb : lcc b = 'p'
          · match bs with
            | [] =>
              simp only [List.cons_append, List.nil_append]
              exact matchPTag_none_head3 (by decide)
            | d :: ds =>
              by_cases hd : d = '>'
              · exfalso
                subst hd
                rcases hg ['<'] b ds rfl with h | h <;>
                  (subst h; exact absurd hb (by decide))
              · exact matchPTag_none_head3 hd
          · exact matchPTag_none_head2 hb
      · exact matchPTag_none_head1 hc
    | n + 1 =>
      have := ih (gtG_tail hg) xs n (by simp at hk; omega)
      simpa [List.drop_succ_cons] using this

/-- After `<p>` and an (empty) whitespace run, a `<f...` continuation fails
the `<img` literal. -/
theorem matchPTag_p_then_figcap {c2 : Char} (h2 : lcc c2 = 'p') (Z : Str) :
    matchPTag ('<' :: c2 :: '>' :: ('<' :: 'f' :: Z)) = none := by
  refine matchPTag_none_no_img h2 ?_
  intro d1 d2 t hd
  rw [List.dropWhile_cons, if_neg (by decide)] at hd
  injection hd with g1 hd2
  injection hd2 with g2 _
  right
  rw [← g2]
  decide

/-- After `<p>` the matcher skips a whitespace run; a case-insensitive
`</p>` continuation then fails the `<img` literal. -/
theorem matchPTag_p_then_pclose {c2 : Char} (h2 : lcc c2 = 'p')
    {w2 o3 : Str} (X : Str) (hw2 : ∀ c ∈ w2, isWs c = true)
    (ho3 : o3.map lcc = pCloseLit.map lcc) :
    matchPTag ('<' :: c2 :: '>' :: (w2 ++ (o3 ++ X))) = none := by
  match o3, ho3 with
  | [], ho3 => simp [pCloseLit] at ho3
  | [q1], ho3 => simp [pCloseLit] at ho3
  | q1 :: q2 :: rest, ho3 =>
    simp only [pCloseLit, List.map_cons, List.cons.injEq] at ho3
    have hq1 : q1 = '<' := lcc_eq_lt_iff.mp (by simpa using ho3.1)
    have hq2 : q2 = '/' := lcc_eq_slash_iff.mp (by simpa using ho3.2.1)
    refine matchPTag_none_no_img h2 ?_
    intro d1 d2 t hd
    have hdw : (w2 ++ (q1 :: q2 :: rest ++ X)).dropWhile isWs =
        q1 :: q2 :: rest ++ X := by
      refine (takeWhile_append_eq hw2 ?_).2
      intro c cs hcc
      injection hcc with hc1 _
      subst hc1 hq1
      rfl
    rw [hdw] at hd
    injection hd with g1 hd2
    injection hd2 with g2 _
    right
    rw [← g2, hq2]
    decide

/-- `<figure>` as an explicit character list. -/
def figLit1 : Str := ['<', 'f', 'i', 'g', 'u', 'r', 'e', '>']

/-- `<figcaption>` as an explicit character list. -/
def figLit2 : Str := ['<', 'f', 'i', 'g', 'c', 'a', 'p', 't', 'i', 'o', 'n', '>']

/-- `</figcaption>` as an explicit character list. -/
def figLit3a : Str :=
  ['<', '/', 'f', 'i', 'g', 'c', 'a', 'p', 't', 'i', 'o', 'n', '>']

/-- `</figure>` as an explicit character list. -/
def figLit3b : Str := ['<', '/', 'f', 'i', 'g', 'u', 'r', 'e', '>']

/-- The figure branch of `_repl`, as nested appends of the pieces. -/
theorem replF_figure {m g cap : Str} (hc : captionOf g = some cap)
    (hne : cap ≠ []) :
    replF m g =
      figLit1 ++ (g ++ (figLit2 ++ (urlSub cap ++ (figLit3a ++ figLit3b)))) := by
  unfold replF
  rw [hc]
  simp only [if_neg hne]
  simp [figLit1, figLit2, figLit3a, figLit3b, List.append_assoc]

theorem safe_figLit1 (X : Str) : Safe figLit1 X :=
  safe_of_head2 (by decide) (by decide) (by decide) X

theorem safe_figLit2 (X : Str) : Safe figLit2 X :=
  safe_of_head2 (by decide) (by decide) (by decide) X

theorem safe_figLit3a (X : Str) : Safe figLit3a X :=
  safe_of_head2 (by decide) (by decide) (by decide) X

theorem safe_figLit3b (X : Str) : Safe figLit3b X :=
  safe_of_head2 (by decide) (by decide) (by decide) X

theorem safe_imgopen {o2 : Str} (ho2 : o2.map lcc = imgLit.map lcc)
    (X : Str) : Safe o2 X := by
  match o2, ho2 with
  | [], ho2 => simp [imgLit] at ho2
  | [a1], ho2 => simp [imgLit] at ho2
  | [a1, a2], ho2 => simp [imgLit] at ho2
  | [a1, a2, a3], ho2 => simp [imgLit] at ho2
  | a1 :: a2 :: a3 :: a4 :: rest, ho2 =>
    simp only [imgLit, List.map_cons, List.cons.injEq] at ho2
    obtain ⟨h1, h2, h3, h4, h5⟩ := ho2
    have hrest : rest = [] := by
      simpa using congrArg List.length h5
    subst hrest
    have ha1 : a1 = '<' := lcc_eq_lt_iff.mp (by simpa using h1)
    subst ha1
    refine safe_of_head2 (by rw [show lcc a2 = 'i' from by simpa using h2]; decide)
      (ne_of_lcc (by rw [show lcc a2 = 'i' from by simpa using h2]; decide)) ?_ X
    intro c hc
    rcases List.mem_cons.mp hc with hc3 | hc4
    · rw [hc3]
      exact ne_of_lcc (by rw [show lcc a3 = 'm' from by simpa using h3]; decide)
    · have hc4e : c = a4 := by simpa using hc4
      rw [hc4e]
      exact ne_of_lcc (by rw [show lcc a4 = 'g' from by simpa using h4]; decide)

theorem safe_pclose {o3 : Str} (ho3 : o3.map lcc = pCloseLit.map lcc)
    (X : Str) : Safe o3 X := by
  match o3, ho3 with
  | [], ho3 => simp [pCloseLit] at ho3
  | [q1], ho3 => simp [pCloseLit] at ho3
  | [q1, q2], ho3 => simp [pCloseLit] at ho3
  | [q1, q2, q3], ho3 => simp [pCloseLit] at ho3
  | q1 :: q2 :: q3 :: q4 :: rest, ho3 =>
    simp only [pCloseLit, List.map_cons, List.cons.injEq] at ho3
    obtain ⟨h1, h2, h3, h4, h5⟩ := ho3
    have hrest : rest = [] := by
      simpa using congrArg List.length h5
    subst hrest
    have hq1 : q1 = '<' := lcc_eq_lt_iff.mp (by simpa using h1)
    have hq2 : q2 = '/' := lcc_eq_slash_iff.mp (by simpa using h2)
    subst hq1 hq2
    refine safe_of_head2 (by decide) (by decide) ?_ X
    intro c hc
    rcases List.mem_cons.mp hc with hc3 | hc4
    · rw [hc3]
      exact ne_of_lcc (by rw [show lcc q3 = 'p' from by simpa using h3]; decide)
    · have hc4e : c = q4 := by simpa using hc4
      have hq4 : q4 = '>' := lcc_eq_gt_iff.mp (by simpa using h4)
      rw [hc4e, hq4]
      decide

theorem safe_attrs_gt {attrs : Str} (hgt : ∀ c ∈ attrs, c ≠ '>') {C : Str}
    (hC : ∀ c2, lcc c2 = 'p' → matchPTag ('<' :: c2 :: '>' :: C) = none) :
    Safe (attrs ++ ['>']) C := by
  intro k hk
  rcases Nat.lt_or_ge k attrs.length with hlt | hge
  · have he : (attrs ++ ['>']).drop k ++ C = attrs.drop k ++ '>' :: C := by
      rw [List.drop_append_of_le_length (Nat.le_of_lt hlt)]
      simp
    rw [he]
    exact matchPTag_attrs_gt_none
      (fun c hc => hgt c (List.drop_subset k attrs hc)) hC
  · have hk0 : k = attrs.length := by
      simp [List.length_append] at hk
      omega
    subst hk0
    rw [List.drop_left]
    exact matchPTag_none_head1 (by decide)

/-- The central safety lemma: no suffix of a figure replacement, even
continued by arbitrary text, can start a paragraph-image match. -/
theorem safe_figure {o2 attrs cap : Str}
    (ho2 : o2.map lcc = imgLit.map lcc) (hat : ∀ c ∈ attrs, c ≠ '>')
    (hgtG : gtG (urlSub cap)) (X : Str) :
    Safe (figLit1 ++ ((o2 ++ (attrs ++ ['>'])) ++
      (figLit2 ++ (urlSub cap ++ (figLit3a ++ figLit3b))))) X := by
  refine safe_append (safe_figLit1 _) ?_
  refine safe_append ?_ ?_
  · refine safe_append (safe_imgopen ho2 _) ?_
    refine safe_attrs_gt hat ?_
    intro c2 h2
    exact matchPTag_p_then_figcap h2 _
  · refine safe_append (safe_figLit2 _) ?_
    refine safe_append (safe_of_gtG _ hgtG _) ?_
    exact safe_append (safe_figLit3a _) (safe_figLit3b _)

/-! ### Classification of the suffixes of a match -/

/-- Two decompositions at a first `>` agree. -/
theorem noGt_append_gt_eq {aT : Str} : ∀ {bT Z W : Str},
    (∀ c ∈ aT, c ≠ '>') → (∀ c ∈ bT, c ≠ '>') →
    aT ++ '>' :: Z = bT ++ '>' :: W → aT = bT ∧ Z = W := by
  induction aT with
  | nil =>
    intro bT Z W _ hb h
    match bT with
    | [] =>
      rw [List.nil_append, List.nil_append] at h
      injection h with _ h2
      exact ⟨rfl, h2⟩
    | b :: bs =>
      rw [List.nil_append, List.cons_append] at h
      injection h with h1 _
      exact absurd h1.symm (hb b (by simp))
  | cons a as ih =>
    intro bT Z W ha hb h
    match bT with
    | [] =>
      rw [List.cons_append, List.nil_append] at h
      injection h with h1 _
      exact absurd h1 (ha a (by simp))
    | b :: bs =>
      rw [List.cons_append, List.cons_append] at h
      injection h with h1 h2
      obtain ⟨e1, e2⟩ := ih (fun c hc => ha c (by simp [hc]))
        (fun c hc => hb c (by simp [hc])) h2
      exact ⟨by rw [h1, e1], e2⟩

/-- Locate a suffix against an append decomposition. -/
theorem suffix_split {w e A B : Str} (h : w ++ e = A ++ B) :
    (∃ eA, A = w ++ eA ∧ e = eA ++ B ∧ eA ≠ []) ∨
    (∃ wB, w = A ++ wB ∧ B = wB ++ e) := by
  rcases List.append_eq_append_iff.mp h with ⟨a2, h1, h2⟩ | ⟨c2, h1, h2⟩
  · match a2 with
    | [] => exact Or.inr ⟨[], by simpa using h1.symm, by simpa using h2.symm⟩
    | x :: xs => exact Or.inl ⟨x :: xs, h1, h2, by simp⟩
  · exact Or.inr ⟨c2, h1, h2⟩

theorem pLit_destruct {o1 : Str} (h : o1.map lcc = pLit.map lcc) :
    ∃ p2, o1 = ['<', p2, '>'] ∧ lcc p2 = 'p' := by
  match o1, h with
  | [], h => simp [pLit] at h
  | [p1], h => simp [pLit] at h
  | [p1, p2], h => simp [pLit] at h
  | [p1, p2, p3], h =>
    simp only [pLit, List.map_cons, List.map_nil, List.cons.injEq] at h
    obtain ⟨h1, h2, h3, _⟩ := h
    have hp1 : p1 = '<' := lcc_eq_lt_iff.mp (by simpa using h1)
    have hp3 : p3 = '>' := lcc_eq_gt_iff.mp (by simpa using h3)
    refine ⟨p2, ?_, by simpa using h2⟩
    rw [hp1, hp3]
  | p1 :: p2 :: p3 :: p4 :: r, h => simp [pLit] at h

theorem imgLit_destruct {o2 : Str} (h : o2.map lcc = imgLit.map lcc) :
    ∃ a2 a3 a4, o2 = ['<', a2, a3, a4] ∧ lcc a2 = 'i' ∧ lcc a3 = 'm' ∧
      lcc a4 = 'g' := by
  match o2, h with
  | [], h => simp [imgLit] at h
  | [a1], h => simp [imgLit] at h
  | [a1, a2], h => simp [imgLit] at h
  | [a1, a2, a3], h => simp [imgLit] at h
  | [a1, a2, a3, a4], h =>
    simp only [imgLit, List.map_cons, List.map_nil, List.cons.injEq] at h
    obtain ⟨h1, h2, h3, h4, _⟩ := h
    have ha1 : a1 = '<' := lcc_eq_lt_iff.mp (by simpa using h1)
    exact ⟨a2, a3, a4, by rw [ha1], by simpa using h2, by simpa using h3,
      by simpa using h4⟩
  | a1 :: a2 :: a3 :: a4 :: a5 :: r, h => simp [imgLit] at h

theorem pCloseLit_destruct {o3 : Str} (h : o3.map lcc = pCloseLit.map lcc) :
    ∃ q3, o3 = ['<', '/', q3, '>'] ∧ lcc q3 = 'p' := by
  match o3, h with
  | [], h => simp [pCloseLit] at h
  | [q1], h => simp [pCloseLit] at h
  | [q1, q2], h => simp [pCloseLit] at h
  | [q1, q2, q3], h => simp [pCloseLit] at h
  | [q1, q2, q3, q4], h =>
    simp only [pCloseLit, List.map_cons, List.map_nil, List.cons.injEq] at h
    obtain ⟨h1, h2, h3, h4, _⟩ := h
    have hq1 : q1 = '<' := lcc_eq_lt_iff.mp (by simpa using h1)
    have hq2 : q2 = '/' := lcc_eq_slash_iff.mp (by simpa using h2)
    have hq4 : q4 = '>' := lcc_eq_gt_iff.mp (by simpa using h4)
    refine ⟨q3, ?_, by simpa using h3⟩
    rw [hq1, hq2, hq4]
  | q1 :: q2 :: q3 :: q4 :: q5 :: r, h => simp [pCloseLit] at h

/-- Every nonempty proper suffix of a matched region either starts with a
character other than `<`, or with `<` followed by (case-insensitive) `i`
or by `/`, or is a run of non-`>` characters followed by `>` and the
whitespace-plus-`</p>` tail of the match. -/
theorem pShape_suffix {m g w e : Str} (hs : PShape m g) (hm : m = w ++ e)
    (hw : w ≠ []) (he : e ≠ []) :
    (∃ d t, e = d :: t ∧ d ≠ '<') ∨
    (∃ d t, e = '<' :: d :: t ∧ (lcc d = 'i' ∨ d = '/')) ∨
    (∃ aT w2 o3, e = aT ++ ('>' :: (w2 ++ o3)) ∧ (∀ c ∈ aT, c ≠ '>') ∧
      (∀ c ∈ w2, isWs c = true) ∧ o3.map lcc = pCloseLit.map lcc) := by
  obtain ⟨o1, w1, o2, attrs, w2, o3, hm1, hg1, ho1, hw1, ho2, hane, hagt,
    hw2, ho3⟩ := hs
  obtain ⟨p2, ho1e, hp2⟩ := pLit_destruct ho1
  obtain ⟨a2, a3, a4, ho2e, ha2, ha3, ha4⟩ := imgLit_destruct ho2
  have hm2 : w ++ e =
      o1 ++ (w1 ++ (o2 ++ (attrs ++ ('>' :: (w2 ++ o3))))) := by
    rw [← hm, hm1, hg1]
    simp [List.append_assoc]
  rcases suffix_split hm2 with ⟨eA, hA1, hA2, hA3⟩ | ⟨wB, hB1, hB2⟩
  · -- e starts inside o1
    rw [ho1e] at hA1
    left
    match w, hw, hA1 with
    | [x], _, hA1 =>
      rw [show [x] ++ eA = x :: eA from rfl] at hA1
      injection hA1 with h1 h2
      refine ⟨p2, '>' :: (w1 ++ (o2 ++ (attrs ++ ('>' :: (w2 ++ o3))))), ?_, ?_⟩
      · rw [hA2, ← h2]
        rfl
      · exact ne_of_lcc (by rw [hp2]; decide)
    | [x, y], _, hA1 =>
      rw [show [x, y] ++ eA = x :: y :: eA from rfl] at hA1
      injection hA1 with h1 h2
      injection h2 with h2 h3
      refine ⟨'>', w1 ++ (o2 ++ (attrs ++ ('>' :: (w2 ++ o3)))), ?_, by decide⟩
      rw [hA2, ← h3]
      rfl
    | x :: y :: z :: ws, _, hA1 =>
      exfalso
      have hlen := congrArg List.length hA1
      simp only [List.length_append, List.length_cons, List.length_nil] at hlen
      have heA : eA.length = 0 := by omega
      exact hA3 (List.eq_nil_of_length_eq_zero heA)
  · -- e starts at or after w1
    rcases suffix_split hB2.symm with ⟨eA, hC1, hC2, hC3⟩ | ⟨wC, hD1, hD2⟩
    · -- e starts inside w1
      left
      match eA, hC3, hC1, hC2 with
      | x :: xs, _, hC1, hC2 =>
        refine ⟨x, xs ++ (o2 ++ (attrs ++ ('>' :: (w2 ++ o3)))), by simpa using hC2, ?_⟩
        have hxw : x ∈ w1 := by
          rw [hC1]
          simp
        exact ws_ne_lt (hw1 x hxw)
    · -- e starts at or after o2
      rcases suffix_split hD2.symm with ⟨eA, hE1, hE2, hE3⟩ | ⟨wD, hF1, hF2⟩
      · -- e starts inside o2 (or exactly at o2)
        rw [ho2e] at hE1
        match wC, hE1 with
        | [], hE1 =>
          right; left
          rw [List.nil_append] at hE1
          refine ⟨a2, a3 :: a4 :: (attrs ++ ('>' :: (w2 ++ o3))), ?_, Or.inl ha2⟩
          rw [hE2, ← hE1]
          rfl
        | [x], hE1 =>
          left
          rw [show [x] ++ eA = x :: eA from rfl] at hE1
          injection hE1 with h1 h2
          refine ⟨a2, a3 :: a4 :: (attrs ++ ('>' :: (w2 ++ o3))), ?_,
            ne_of_lcc (by rw [ha2]; decide)⟩
          rw [hE2, ← h2]
          rfl
        | [x, y], hE1 =>
          left
          rw [show [x, y] ++ eA = x :: y :: eA from rfl] at hE1
          injection hE1 with h1 h2
          injection h2 with h2 h3
          refine ⟨a3, a4 :: (attrs ++ ('>' :: (w2 ++ o3))), ?_,
            ne_of_lcc (by rw [ha3]; decide)⟩
          rw [hE2, ← h3]
          rfl
        | [x, y, z], hE1 =>
          left
          rw [show [x, y, z] ++ eA = x :: y :: z :: eA from rfl] at hE1
          injection hE1 with h1 h2
          injection h2 with h2 h3
          injection h3 with h3 h4
          refine ⟨a4, attrs ++ ('>' :: (w2 ++ o3)), ?_,
            ne_of_lcc (by rw [ha4]; decide)⟩
          rw [hE2, ← h4]
          rfl
        | x :: y :: z :: u :: ws, hE1 =>
          exfalso
          have hlen := congrArg List.length hE1
          simp only [List.length_append, List.length_cons, List.length_nil] at hlen
          have heA : eA.length = 0 := by omega
          exact hE3 (List.eq_nil_of_length_eq_zero heA)
      · -- e starts at or after attrs
        rcases suffix_split hF2.symm with ⟨eA, hG1, hG2, hG3⟩ | ⟨wE, hH1, hH2⟩
        · -- e starts inside attrs
          right; right
          refine ⟨eA, w2, o3, hG2, ?_, hw2, ho3⟩
          intro c hc
          refine hagt c ?_
          rw [hG1]
          simp [hc]
        · -- e starts at the closing > of the image tag or later
          match wE, hH2 with
          | [], hH2 =>
            right; right
            exact ⟨[], w2, o3, by simpa using hH2.symm, by simp, hw2, ho3⟩
          | x :: wF, hH2 =>
            rw [List.cons_append] at hH2
            injection hH2 with hx hH3
            rcases suffix_split hH3.symm with ⟨eA, hI1, hI2, hI3⟩ | ⟨wG, hJ1, hJ2⟩
            · left
              match eA, hI3, hI1, hI2 with
              | y :: ys, _, hI1, hI2 =>
                refine ⟨y, ys ++ o3, by simpa using hI2, ?_⟩
                have hyw : y ∈ w2 := by
                  rw [hI1]
                  simp
                exact ws_ne_lt (hw2 y hyw)
            · obtain ⟨q3, ho3e, hq3⟩ := pCloseLit_destruct ho3
              rw [ho3e] at hJ2
              match wG, hJ2 with
              | [], hJ2 =>
                right; left
                rw [List.nil_append] at hJ2
                exact ⟨'/', [q3, '>'], hJ2.symm, Or.inr rfl⟩
              | [y], hJ2 =>
                left
                rw [show [y] ++ e = y :: e from rfl] at hJ2
                injection hJ2 with h1 h2
                exact ⟨'/', [q3, '>'], h2.symm, by decide⟩
              | [y, z], hJ2 =>
                left
                rw [show [y, z] ++ e = y :: z :: e from rfl] at hJ2
                injection hJ2 with h1 h2
                injection h2 with h2 h3
                exact ⟨q3, ['>'], h3.symm, ne_of_lcc (by rw [hq3]; decide)⟩
              | [y, z, u], hJ2 =>
                left
                rw [show [y, z, u] ++ e = y :: z :: u :: e from rfl] at hJ2
                injection hJ2 with h1 h2
                injection h2 with h2 h3
                injection h3 with h3 h4
                exact ⟨'>', [], h4.symm, by decide⟩
              | y :: z :: u :: t :: ws, hJ2 =>
                exfalso
                have hlen := congrArg List.length hJ2
                simp only [List.length_append, List.length_cons, List.length_nil] at hlen
                have he0 : e.length = 0 := by omega
                exact he (List.eq_nil_of_length_eq_zero he0)

/-! ### Character facts about extracted captions -/

theorem mem_dropWhile_subset {p : Char → Bool} :
    ∀ {l : Str} {c : Char}, c ∈ l.dropWhile p → c ∈ l := by
  intro l
  induction l with
  | nil => intro c hc; simpa using hc
  | cons a as ih =>
    intro c hc
    rw [List.dropWhile_cons] at hc
    by_cases hp : p a = true
    · rw [if_pos hp] at hc
      exact List.mem_cons_of_mem a (ih hc)
    · rw [if_neg hp] at hc
      exact hc

theorem pyStrip_subset {v : Str} {c : Char} (hc : c ∈ pyStrip v) : c ∈ v := by
  unfold pyStrip at hc
  rw [List.mem_reverse] at hc
  have h2 := mem_dropWhile_subset hc
  rw [List.mem_reverse] at h2
  exact mem_dropWhile_subset h2

/-- The group captured by the attribute pattern: no quote in the value, and
the value sits in the searched string just before a closing quote. -/
theorem findAttr_val {lit : Str} : ∀ {s v : Str}, findAttr lit s = some v →
    (∀ c ∈ v, c ≠ '"') ∧ ∃ x y, s = x ++ (v ++ '"' :: y) := by
  intro s
  induction s with
  | nil => intro v h; simp [findAttr] at h
  | cons c cs ih =>
    intro v h
    unfold findAttr at h
    match ha : attrAt lit (c :: cs) with
    | some v0 =>
      rw [ha] at h
      simp only [Option.some.injEq] at h
      subst h
      unfold attrAt at ha
      match he : expectCI lit (c :: cs) with
      | none => rw [he] at ha; simp at ha
      | some (o, s1) =>
        rw [he] at ha
        simp only at ha
        by_cases hv : s1.takeWhile (fun c => c ≠ '"') = []
        · rw [if_pos hv] at ha; exact absurd ha (by simp)
        · rw [if_neg hv] at ha
          match hd : s1.dropWhile (fun c => c ≠ '"') with
          | [] => rw [hd] at ha; exact absurd ha (by simp)
          | d :: ds =>
            rw [hd] at ha
            simp only [Option.some.injEq] at ha
            subst ha
            have hdq : d = '"' := by
              have := dropWhile_head_false hd
              simpa using this
            constructor
            · intro x hx
              have := List.mem_takeWhile_imp hx
              simpa using this
            · refine ⟨o, ds, ?_⟩
              have hs1 : s1 = s1.takeWhile (fun c => c ≠ '"') ++
                  s1.dropWhile (fun c => c ≠ '"') :=
                (List.takeWhile_append_dropWhile (fun c => c ≠ '"') s1).symm
              rw [hd, hdq] at hs1
              rw [(expectCI_sound he).1]
              conv_lhs => rw [hs1]
    | none =>
      rw [ha] at h
      simp only at h
      obtain ⟨hq, x, y, hxy⟩ := ih h
      exact ⟨hq, c :: x, y, by rw [hxy]; rfl⟩

/-- A value captured before a closing quote inside an image tag whose only
`>` is its final character contains no `>`. -/
theorem attr_val_no_gt {front v x y : Str}
    (hfront : ∀ c ∈ front, c ≠ '>')
    (hsplit : front ++ ['>'] = x ++ (v ++ '"' :: y)) :
    ∀ c ∈ v, c ≠ '>' := by
  rcases List.eq_nil_or_concat y with hy | ⟨y1, z, hy⟩
  · subst hy
    exfalso
    have h2 : front ++ ['>'] = (x ++ v) ++ ['"'] := by
      rw [hsplit]
      simp [List.append_assoc]
    obtain ⟨_, h3⟩ := List.append_inj' h2 (by simp)
    simp at h3
  · rw [show List.concat y1 z = y1 ++ [z] from List.concat_eq_append y1 z] at hy
    subst hy
    have h2 : front ++ ['>'] = (x ++ (v ++ '"' :: y1)) ++ [z] := by
      rw [hsplit]
      simp [List.append_assoc]
    obtain ⟨h3, _⟩ := List.append_inj' h2 (by simp)
    intro c hc
    refine hfront c ?_
    rw [h3]
    simp [hc]

/-- The caption computed from an image tag of match shape contains no quote
and no `>`. -/
theorem captionOf_chars {o2 attrs cap : Str}
    (ho2 : o2.map lcc = imgLit.map lcc) (hagt : ∀ c ∈ attrs, c ≠ '>')
    (hc : captionOf (o2 ++ attrs ++ ['>']) = some cap) :
    (∀ c ∈ cap, c ≠ '"') ∧ (∀ c ∈ cap, c ≠ '>') := by
  have hfront : ∀ c ∈ o2 ++ attrs, c ≠ '>' := by
    obtain ⟨a2, a3, a4, ho2e, ha2, ha3, ha4⟩ := imgLit_destruct ho2
    intro c hcm
    rcases List.mem_append.mp hcm with hcm | hcm
    · rw [ho2e] at hcm
      rcases List.mem_cons.mp hcm with h1 | hcm
      · rw [h1]; decide
      rcases List.mem_cons.mp hcm with h1 | hcm
      · rw [h1]; exact ne_of_lcc (by rw [ha2]; decide)
      rcases List.mem_cons.mp hcm with h1 | hcm
      · rw [h1]; exact ne_of_lcc (by rw [ha3]; decide)
      rcases List.mem_cons.mp hcm with h1 | hcm
      · rw [h1]; exact ne_of_lcc (by rw [ha4]; decide)
      · simp at hcm
    · exact hagt c hcm
  have hgsplit : o2 ++ attrs ++ ['>'] = (o2 ++ attrs) ++ ['>'] := by
    simp [List.append_assoc]
  unfold captionOf at hc
  match ht : findAttr titleLit (o2 ++ attrs ++ ['>']) with
  | some v =>
    rw [ht] at hc
    simp only [Option.some.injEq] at hc
    subst hc
    obtain ⟨hq, x, y, hxy⟩ := findAttr_val ht
    rw [hgsplit] at hxy
    have hvgt := attr_val_no_gt hfront hxy
    exact ⟨fun c hcm => hq c (pyStrip_subset hcm),
      fun c hcm => hvgt c (pyStrip_subset hcm)⟩
  | none =>
    rw [ht] at hc
    simp only at hc
    match ha : findAttr altLit (o2 ++ attrs ++ ['>']) with
    | some v =>
      rw [ha] at hc
      simp only [Option.some.injEq] at hc
      subst hc
      obtain ⟨hq, x, y, hxy⟩ := findAttr_val ha
      rw [hgsplit] at hxy
      have hvgt := attr_val_no_gt hfront hxy
      exact ⟨fun c hcm => hq c (pyStrip_subset hcm),
        fun c hcm => hvgt c (pyStrip_subset hcm)⟩
    | none =>
      rw [ha] at hc
      simp at hc

/-- When `_repl` does change the match, the caption is truthy and the
result is the figure form. -/
theorem replF_ne_imp {m g : Str} (hne : replF m g ≠ m) :
    ∃ cap, captionOf g = some cap ∧ cap ≠ [] ∧
      replF m g =
        figLit1 ++ (g ++ (figLit2 ++ (urlSub cap ++ (figLit3a ++ figLit3b)))) := by
  match hc : captionOf g with
  | none =>
    exfalso
    refine hne ?_
    unfold replF
    rw [hc]
  | some cap =>
    by_cases hcap : cap = []
    · exfalso
      refine hne ?_
      unfold replF
      rw [hc]
      simp [hcap]
    · exact ⟨cap, rfl, hcap, replF_figure hc hcap⟩

/-! ### The first figure of a pass, and preservation of match failure -/

theorem matchPTag_nil : matchPTag ([] : Str) = none := rfl

theorem matchPTag_of_shape_of_match {s m g r : Str}
    (h : matchPTag s = some (m, g, r)) :
    ∀ Y, matchPTag (m ++ Y) = some (m, g, Y) :=
  matchPTag_of_shape (matchPTag_shape h)

/-- Either a pass leaves `t` unchanged, or it splits as a verbatim prefix,
a first changed (figure) match, and a recursively processed rest. -/
theorem firstFig : ∀ (n : Nat) (t : Str), t.length ≤ n →
    convert_img_captions t = t ∨
    ∃ P mF gF rest, t = P ++ (mF ++ rest) ∧
      convert_img_captions t =
        P ++ (replF mF gF ++ convert_img_captions rest) ∧
      matchPTag (mF ++ rest) = some (mF, gF, rest) ∧
      replF mF gF ≠ mF := by
  intro n
  induction n with
  | zero =>
    intro t ht
    left
    have hnil : t = [] := List.eq_nil_of_length_eq_zero (by omega)
    subst hnil
    exact convert_img_captions_nil
  | succ n ih =>
    intro t ht
    match t with
    | [] => left; exact convert_img_captions_nil
    | c :: cs =>
      match hm : matchPTag (c :: cs) with
      | none =>
        rcases ih cs (by simp at ht; omega) with h | ⟨P, mF, gF, rest, h1, h2, h3, h4⟩
        · left
          rw [convert_img_captions_cons_none hm, h]
        · right
          exact ⟨c :: P, mF, gF, rest, by rw [List.cons_append, ← h1],
            by rw [convert_img_captions_cons_none hm, h2]; rfl, h3, h4⟩
      | some (m, g, r) =>
        by_cases hre : replF m g = m
        · rcases ih r (by
              have hlt := matchPTag_length_lt hm
              simp only [List.length_cons] at ht hlt
              omega) with h | ⟨P, mF, gF, rest, h1, h2, h3, h4⟩
          · left
            rw [convert_img_captions_cons_some hm, h, hre]
            exact ((matchPTag_sound hm).1).symm
          · right
            refine ⟨m ++ P, mF, gF, rest, ?_, ?_, h3, h4⟩
            · rw [List.append_assoc, ← h1]
              exact (matchPTag_sound hm).1
            · rw [convert_img_captions_cons_some hm, hre, h2]
              simp [List.append_assoc]
        · right
          refine ⟨[], m, g, r, ?_, ?_, ?_, hre⟩
          · simpa using (matchPTag_sound hm).1
          · rw [convert_img_captions_cons_some hm]
            rfl
          · rw [← (matchPTag_sound hm).1]
            exact hm

/-- If the original text had no match at a position, the rewritten text has
no match there either. -/
theorem mlem {c : Char} {t : Str} (h : matchPTag (c :: t) = none) :
    matchPTag (c :: convert_img_captions t) = none := by
  rcases firstFig t.length t (Nat.le_refl _) with heq | ⟨P, mF, gF, rest, h1, h2, h3, h4⟩
  · rw [heq]
    exact h
  · rw [h2]
    obtain ⟨cap, hcap, hcapne, hfig⟩ := replF_ne_imp h4
    match hm2 : matchPTag (c :: (P ++ (replF mF gF ++ convert_img_captions rest))) with
    | none => rfl
    | some (m2, g2, r2) =>
      exfalso
      have hsound := (matchPTag_sound hm2).1
      have hshape := matchPTag_shape hm2
      rw [show c :: (P ++ (replF mF gF ++ convert_img_captions rest)) =
        (c :: P) ++ (replF mF gF ++ convert_img_captions rest) from rfl] at hsound
      rcases suffix_split hsound.symm with ⟨eA, hA1, hA2, hA3⟩ | ⟨wB, hB1, hB2⟩
      · -- m2 is a proper prefix of c :: P: the original would have matched
        have hko : matchPTag (c :: t) = some (m2, g2, eA ++ (mF ++ rest)) := by
          have hct : c :: t = m2 ++ (eA ++ (mF ++ rest)) := by
            rw [h1, show c :: (P ++ (mF ++ rest)) =
              (c :: P) ++ (mF ++ rest) from rfl, hA1]
            simp [List.append_assoc]
          rw [hct]
          exact matchPTag_of_shape_of_match hm2 _
        rw [h] at hko
        exact absurd hko (by simp)
      · match wB, hB2 with
        | [], hB2 =>
          -- m2 equals c :: P exactly
          have hko : matchPTag (c :: t) = some (m2, g2, mF ++ rest) := by
            have hct : c :: t = m2 ++ (mF ++ rest) := by
              rw [h1, show c :: (P ++ (mF ++ rest)) =
                (c :: P) ++ (mF ++ rest) from rfl, hB1]
              simp
            rw [hct]
            exact matchPTag_of_shape_of_match hm2 _
          rw [h] at hko
          exact absurd hko (by simp)
        | x :: wB2, hB2 =>
          -- m2 reaches into the figure: impossible
          have hwne : (x :: wB2 : Str) ≠ [] := by simp
          have hQne : (c :: P : Str) ≠ [] := by simp
          rcases pShape_suffix hshape hB1 hQne hwne with
            ⟨d, t1, hd1, hd2⟩ | ⟨d, t1, hd1, hd2⟩ |
            ⟨aT, w2x, o3x, he1, he2, he3, he4⟩
          · -- head is not <, but the figure starts with <
            rw [hfig, hd1] at hB2
            rw [show (figLit1 ++ (gF ++ (figLit2 ++ (urlSub cap ++
              (figLit3a ++ figLit3b))))) ++ convert_img_captions rest =
              '<' :: 'f' :: ((['i', 'g', 'u', 'r', 'e', '>'] ++ (gF ++ (figLit2 ++
              (urlSub cap ++ (figLit3a ++ figLit3b))))) ++
              convert_img_captions rest) from rfl] at hB2
            rw [List.cons_append] at hB2
            injection hB2 with hx1 _
            exact hd2 hx1.symm
          · -- head is <i or </, but the figure starts with <f
            rw [hfig, hd1] at hB2
            rw [show (figLit1 ++ (gF ++ (figLit2 ++ (urlSub cap ++
              (figLit3a ++ figLit3b))))) ++ convert_img_captions rest =
              '<' :: 'f' :: ((['i', 'g', 'u', 'r', 'e', '>'] ++ (gF ++ (figLit2 ++
              (urlSub cap ++ (figLit3a ++ figLit3b))))) ++
              convert_img_captions rest) from rfl] at hB2
            rw [List.cons_append, List.cons_append] at hB2
            injection hB2 with _ hB3
            injection hB3 with hx2 _
            rcases hd2 with hd2 | hd2
            · rw [← hx2] at hd2
              exact absurd hd2 (by decide)
            · rw [← hx2] at hd2
              exact absurd hd2 (by decide)
          · -- a non-> run then > then whitespace and </p>:
            -- forces the run to be exactly <figure and then the image tag
            -- of the figure would have to start with </p>
            obtain ⟨oF1, wF1, oF2, attrsF, wF2, oF3, hmF1, hgF1, hoF1, hwF1,
              hoF2, hFne, hFgt, hwF2, hoF3⟩ := matchPTag_shape h3
            rw [hfig, he1] at hB2
            have h5 : (aT ++ ('>' :: (w2x ++ o3x))) ++ r2 =
                aT ++ '>' :: ((w2x ++ o3x) ++ r2) := by
              simp [List.append_assoc]
            have h6 : (figLit1 ++ (gF ++ (figLit2 ++ (urlSub cap ++
                (figLit3a ++ figLit3b))))) ++ convert_img_captions rest =
                ['<', 'f', 'i', 'g', 'u', 'r', 'e'] ++ '>' ::
                  ((gF ++ (figLit2 ++ (urlSub cap ++ (figLit3a ++ figLit3b)))) ++
                    convert_img_captions rest) := by
              simp [figLit1, List.append_assoc]
            have hB2b : aT ++ '>' :: ((w2x ++ o3x) ++ r2) =
              ['<', 'f', 'i', 'g', 'u', 'r', 'e'] ++ '>' ::
                ((gF ++ (figLit2 ++ (urlSub cap ++ (figLit3a ++ figLit3b)))) ++
                  convert_img_captions rest) := by
              rw [← h5, ← hB2, h6]
            obtain ⟨haT, hrest2⟩ := noGt_append_gt_eq he2 (by decide) hB2b
            -- now w2x ++ (o3x ++ r2) = gF ++ ...
            obtain ⟨b2, b3, b4, hoF2e, hb2, hb3, hb4⟩ := imgLit_destruct hoF2
            have hgFcons : gF = '<' :: b2 :: b3 :: b4 :: (attrsF ++ ['>']) := by
              rw [hgF1, hoF2e]
              simp [List.append_assoc]
            have hrest3 : w2x ++ (o3x ++ r2) =
                '<' :: b2 :: ((b3 :: b4 :: (attrsF ++ ['>'])) ++
                  ((figLit2 ++ (urlSub cap ++ (figLit3a ++ figLit3b))) ++
                  convert_img_captions rest)) := by
              rw [← List.append_assoc, hrest2, hgFcons]
              simp [List.append_assoc]
            match w2x, hrest3 with
            | [], hrest3 =>
              rw [List.nil_append] at hrest3
              obtain ⟨q3x, ho3xe, _⟩ := pCloseLit_destruct he4
              rw [ho3xe] at hrest3
              rw [show (['<', '/', q3x, '>'] : Str) ++ r2 =
                '<' :: '/' :: q3x :: '>' :: r2 from rfl] at hrest3
              injection hrest3 with _ hr3
              injection hr3 with hslash _
              rw [← hslash] at hb2
              exact absurd hb2 (by decide)
            | y :: ys, hrest3 =>
              rw [List.cons_append] at hrest3
              injection hrest3 with hy _
              have hyws : isWs y = true := he3 y (by simp)
              exact ws_ne_lt hyws hy

/-! ### The second pass: fixpoint and the identity-or-none property -/

/-- If no decomposition of `t` exposes a changing match, the pass is the
identity on `t`. -/
theorem cic_fix : ∀ (n : Nat) (t : Str), t.length ≤ n →
    (∀ u v, t = u ++ v → ∀ m g r, matchPTag v = some (m, g, r) →
      replF m g = m) →
    convert_img_captions t = t := by
  intro n
  induction n with
  | zero =>
    intro t ht _
    have hnil : t = [] := List.eq_nil_of_length_eq_zero (by omega)
    subst hnil
    exact convert_img_captions_nil
  | succ n ih =>
    intro t ht H
    match t with
    | [] => exact convert_img_captions_nil
    | c :: cs =>
      match hm : matchPTag (c :: cs) with
      | none =>
        rw [convert_img_captions_cons_none hm]
        rw [ih cs (by simp only [List.length_cons] at ht; omega)
          (fun u v huv m g r hmr =>
            H (c :: u) v (by rw [huv]; rfl) m g r hmr)]
      | some (m, g, r) =>
        have hre : replF m g = m := H [] (c :: cs) rfl m g r hm
        rw [convert_img_captions_cons_some hm, hre]
        have hsound := (matchPTag_sound hm).1
        have hr : convert_img_captions r = r := by
          refine ih r (by
            have hlt := matchPTag_length_lt hm
            simp only [List.length_cons] at ht hlt
            omega) ?_
          intro u v huv m2 g2 r2 hmr2
          refine H (m ++ u) v ?_ m2 g2 r2 hmr2
          rw [hsound, huv]
          simp [List.append_assoc]
        rw [hr]
        exact hsound.symm

/-- Every match the scanner can find inside the output of a pass is an
identity match: `_repl` leaves it unchanged. Copied characters offer no
match at all (`mlem`), re-found regions re-match identically
(determinism), and no suffix of an inserted figure block, nor any interior
position of an identity block, starts a match. -/
theorem cic_idOrNone : ∀ (n : Nat) (s : Str), s.length ≤ n →
    ∀ u v, convert_img_captions s = u ++ v →
    ∀ m2 g2 r2, matchPTag v = some (m2, g2, r2) → replF m2 g2 = m2 := by
  intro n
  induction n with
  | zero =>
    intro s hs u v huv m2 g2 r2 hm2
    exfalso
    have hnil : s = [] := List.eq_nil_of_length_eq_zero (by omega)
    subst hnil
    rw [convert_img_captions_nil] at huv
    have hv : v = [] := by
      have hl := congrArg List.length huv
      simp only [List.length_nil, List.length_append] at hl
      exact List.eq_nil_of_length_eq_zero (by omega)
    rw [hv, matchPTag_nil] at hm2
    exact absurd hm2 (by simp)
  | succ n ih =>
    intro s hs u v huv m2 g2 r2 hm2
    match s with
    | [] =>
      exfalso
      rw [convert_img_captions_nil] at huv
      have hv : v = [] := by
        have hl := congrArg List.length huv
        simp only [List.length_nil, List.length_append] at hl
        exact List.eq_nil_of_length_eq_zero (by omega)
      rw [hv, matchPTag_nil] at hm2
      exact absurd hm2 (by simp)
    | c :: cs =>
      match hm : matchPTag (c :: cs) with
      | none =>
        rw [convert_img_captions_cons_none hm] at huv
        match u, huv with
        | [], huv =>
          exfalso
          rw [List.nil_append] at huv
          rw [← huv, mlem hm] at hm2
          exact absurd hm2 (by simp)
        | u0 :: us, huv =>
          rw [List.cons_append] at huv
          injection huv with _ huv2
          exact ih cs (by simp only [List.length_cons] at hs; omega)
            us v huv2 m2 g2 r2 hm2
      | some (m, g, r) =>
        have hlr : r.length ≤ n := by
          have hlt := matchPTag_length_lt hm
          simp only [List.length_cons] at hs hlt
          omega
        by_cases hre : replF m g = m
        · -- identity block: the second pass re-finds exactly the same match
          rw [convert_img_captions_cons_some hm, hre] at huv
          rcases suffix_split huv with ⟨eA, hA1, hA2, _⟩ | ⟨wB, hB1, hB2⟩
          · exact ih r hlr eA v hA2 m2 g2 r2 hm2
          · match wB, hB1, hB2 with
            | [], hB1, hB2 =>
              exact ih r hlr [] v (by simpa using hB2.symm) m2 g2 r2 hm2
            | x :: wB2, hB1, hB2 =>
              match u, hB1 with
              | [], hB1 =>
                -- v starts exactly at the copied match m
                rw [List.nil_append] at hB1
                have hm3 :
                    matchPTag v = some (m, g, convert_img_captions r) := by
                  rw [hB2, ← hB1]
                  exact matchPTag_of_shape_of_match hm _
                rw [hm2] at hm3
                simp only [Option.some.injEq, Prod.mk.injEq] at hm3
                rw [hm3.1, hm3.2.1]
                exact hre
              | u0 :: us, hB1 =>
                -- v starts strictly inside the copied match: no match there
                exfalso
                have hwne : (x :: wB2 : Str) ≠ [] := by simp
                have hune : (u0 :: us : Str) ≠ [] := by simp
                rcases pShape_suffix (matchPTag_shape hm) hB1 hune hwne with
                  ⟨d, t1, hd1, hd2⟩ | ⟨d, t1, hd1, hd2⟩ |
                  ⟨aT, w2x, o3x, he1, he2, he3, he4⟩
                · rw [hB2, hd1, List.cons_append,
                    matchPTag_none_head1 hd2] at hm2
                  simp at hm2
                · have hdp : lcc d ≠ 'p' := by
                    rcases hd2 with hdi | hds
                    · rw [hdi]; decide
                    · rw [hds]; decide
                  rw [hB2, hd1, List.cons_append, List.cons_append,
                    matchPTag_none_head2 hdp] at hm2
                  simp at hm2
                · have hveq : v =
                      aT ++ '>' :: (w2x ++ (o3x ++ convert_img_captions r)) := by
                    rw [hB2, he1]
                    simp [List.append_assoc]
                  have hnone : matchPTag v = none := by
                    rw [hveq]
                    refine matchPTag_attrs_gt_none he2 ?_
                    intro c2 h2
                    exact matchPTag_p_then_pclose h2 _ he3 he4
                  rw [hnone] at hm2
                  simp at hm2
        · -- figure block: no suffix of the replacement starts a match
          obtain ⟨cap, hcap, hcapne, hfig⟩ := replF_ne_imp hre
          obtain ⟨o1, w1, o2, attrs, w2, o3, hm1, hg1, ho1, hw1, ho2, hane,
            hagt, hw2, ho3⟩ := matchPTag_shape hm
          have hcapc : captionOf (o2 ++ attrs ++ ['>']) = some cap := by
            rw [← hg1]
            exact hcap
          have hchars := captionOf_chars ho2 hagt hcapc
          have hgtG : gtG (urlSub cap) :=
            (urlSub_inv cap.length cap (Nat.le_refl _) hchars.1 hchars.2).1
          have heqT : replF m g = figLit1 ++ ((o2 ++ (attrs ++ ['>'])) ++
              (figLit2 ++ (urlSub cap ++ (figLit3a ++ figLit3b)))) := by
            rw [hfig, hg1]
            simp [List.append_assoc]
          rw [convert_img_captions_cons_some hm] at huv
          rcases suffix_split huv with ⟨eA, hA1, hA2, _⟩ | ⟨wB, hB1, hB2⟩
          · exact ih r hlr eA v hA2 m2 g2 r2 hm2
          · match wB, hB1, hB2 with
            | [], hB1, hB2 =>
              exact ih r hlr [] v (by simpa using hB2.symm) m2 g2 r2 hm2
            | x :: wB2, hB1, hB2 =>
              exfalso
              have hsafe : Safe (replF m g) (convert_img_captions r) := by
                rw [heqT]
                exact safe_figure ho2 hagt hgtG _
              have hk : u.length < (replF m g).length := by
                have hl := congrArg List.length hB1
                simp only [List.length_append, List.length_cons] at hl
                omega
              have hdrop : (replF m g).drop u.length = x :: wB2 := by
                rw [hB1, List.drop_left]
              have hnone := hsafe u.length hk
              rw [hdrop, ← hB2] at hnone
              rw [hnone] at hm2
              simp at hm2

/-- C2: the caption post-processor `convert_img_captions` is idempotent —
a second pass over its own output changes nothing, so an image already
wrapped in a figure is never double-wrapped. -/
theorem c2_caption_idempotent (h : Str) :
    convert_img_captions (convert_img_captions h) = convert_img_captions h :=
  cic_fix (convert_img_captions h).length (convert_img_captions h)
    (Nat.le_refl _)
    (fun u v huv m g r hm =>
      cic_idOrNone h.length h (Nat.le_refl _) u v huv m g r hm)

end MdToHtml
